import Mathlib

/-!
# Cluster-tree construction of hmat-oss (`src/clustering.cpp`)

Shallow embedding of the clustering strategies and of the recursive tree
builder.  C++ `int` values are integers (`Int`); `int` is 32 bits wide, and the
product `size * i` of Median bisection, as well as the sum and the doubling of
its tie-break test, are reduced modulo `2^32` (`int32`), which is what the
usual two's-complement targets compute.  C++ `double` values are rationals
(`ℚ`), and every arithmetic operation on them is rounded to the nearest
`double` (`Double.round`).  A read outside the storage of an array makes the
operation return `none`.  The last section of
the definitions embeds the factorization-mode check of
`src/default_engine.cpp`.
-/

namespace hmat

/-! ## Data model -/

/-- Coordinate store (`DofCoordinates`, declared in a header outside the
sources): `flat` is the storage reached through `&get(0,0)`, `spanCenter` and
`spanDiameter` are the accessors used by the comparators. -/
structure DofCoordinates where
  dimension : Int
  flat : Int → ℚ
  spanCenter : Int → Int → ℚ
  spanDiameter : Int → Int → ℚ

/-- Immutable inputs of one build: the coordinates, the optional group-id
array, the process-wide default leaf size (`HMatSettings::maxLeafSize`) and the
depth carried by a node freshly returned by `ClusterTree::slice` (declared in a
header outside the sources) as a function of the depth of the sliced node. -/
structure DofData where
  coordinates : DofCoordinates
  group_index : Option (List Int)
  settingsMaxLeafSize : Int
  sliceDepth : Int → Int

/-- The part of a `ClusterTree` node that `partition` reads: its depth and its
range `[offset, offset + size)` of the shared forward permutation. -/
structure Node where
  depth : Int
  offset : Int
  size : Int
deriving DecidableEq, Repr

/-- Result of `current.slice(offset, size)`: a view of the same permutation. -/
def Node.slice (d : DofData) (current : Node) (offset size : Int) : Node :=
  ⟨d.sliceDepth current.depth, offset, size⟩

/-- Entries `indices() + offset()` ... `+ size()` of the forward permutation. -/
def myIndices (indices : List Int) (current : Node) : List Int :=
  (indices.drop current.offset.toNat).take current.size.toNat

/-- Element `(indices() + offset())[k]`. -/
def indexAt (indices : List Int) (current : Node) (k : Int) : Int :=
  indices.getD (current.offset + k).toNat 0

/-- Positional read `(group_index() + offset())[k]`; `none` when the position
is outside the group array. -/
def groupAt (g : List Int) (current : Node) (k : Int) : Option Int :=
  if 0 ≤ current.offset + k ∧ current.offset + k < g.length then
    some (g.getD (current.offset + k).toNat 0)
  else none

/-- The value a 32-bit two's-complement `int` holds after an operation whose
exact result is `x`. -/
def int32 (x : Int) : Int := (x + 2 ^ 31) % 2 ^ 32 - 2 ^ 31

/-! ## Arithmetic of C++ `double` -/

/-- Round a rational to the nearest integer, ties to the even one. -/
def roundHalfEven (q : ℚ) : Int :=
  if q - ⌊q⌋ < 1 / 2 then ⌊q⌋
  else if q - ⌊q⌋ > 1 / 2 then ⌊q⌋ + 1
  else if ⌊q⌋ % 2 = 0 then ⌊q⌋ else ⌊q⌋ + 1

/-- The `double` nearest to a positive rational: 53 significant bits, ties to
even. -/
def Double.roundPos (x : ℚ) : ℚ :=
  (roundHalfEven (x * 2 ^ (52 - Int.log 2 x)) : ℚ) * 2 ^ (Int.log 2 x - 52)

/-- The `double` nearest to a rational, the rounding that every arithmetic
operation on `double` applies to its exact result (round to nearest, ties to
even); the exponent range is not bounded, so overflow to infinity and gradual
underflow are left out. -/
def Double.round (x : ℚ) : ℚ :=
  if 0 < x then Double.roundPos x else if x < 0 then -Double.roundPos (-x) else 0

/-- `x + y` on `double`. -/
def Double.add (x y : ℚ) : ℚ := Double.round (x + y)

/-- `x - y` on `double`. -/
def Double.sub (x y : ℚ) : ℚ := Double.round (x - y)

/-- `x * y` on `double`. -/
def Double.mul (x y : ℚ) : ℚ := Double.round (x * y)

/-- `x / y` on `double`. -/
def Double.div (x y : ℚ) : ℚ := Double.round (x / y)

/-! ## Comparators and sorting -/

/-- `IndicesComparator::operator()`: order by group id first when groups are
present, then by span centre along `axis`. -/
def IndicesComparator (axis : Int) (d : DofData) (i j : Int) : Bool :=
  match d.group_index with
  | none => decide (d.coordinates.spanCenter i axis < d.coordinates.spanCenter j axis)
  | some g =>
    if g.getD i.toNat 0 = g.getD j.toNat 0 then
      decide (d.coordinates.spanCenter i axis < d.coordinates.spanCenter j axis)
    else decide (g.getD i.toNat 0 < g.getD j.toNat 0)

/-- `std::stable_sort` with comparator `lt`: insertion sort that places an
element before the first later element that is not smaller. -/
def stable_sort (lt : Int → Int → Bool) (l : List Int) : List Int :=
  l.insertionSort (fun a b => lt b a = false)

/-- Apply `std::stable_sort` to the range of `current` inside the forward
permutation, leaving the rest of the array in place. -/
def sortRange (lt : Int → Int → Bool) (indices : List Int) (current : Node) : List Int :=
  indices.take current.offset.toNat ++ stable_sort lt (myIndices indices current)
    ++ indices.drop (current.offset.toNat + current.size.toNat)

/-- `AxisAlignClusteringAlgorithm::sortByDimension`. -/
def sortByDimension (d : DofData) (indices : List Int) (current : Node) (dim : Int) :
    List Int :=
  sortRange (IndicesComparator dim d) indices current

/-! ## Bounding box -/

/-- Coordinate `get(i, dim)` of DOF `i`. -/
def DofCoordinates.get (c : DofCoordinates) (i dim : Int) : ℚ :=
  c.flat (i * c.dimension + dim)

/-- Modelled from the spec: `AxisAlignedBoundingBox::bbMin` is declared in a
header outside the sources; per-axis minimum of the DOF positions of the
range. -/
def bbMin (c : DofCoordinates) (idx : List Int) (dim : Int) : ℚ :=
  match idx with
  | [] => 0
  | i :: rest => rest.foldl (fun acc j => min acc (c.get j dim)) (c.get i dim)

/-- Modelled from the spec: `AxisAlignedBoundingBox::bbMax` is declared in a
header outside the sources; per-axis maximum of the DOF positions of the
range. -/
def bbMax (c : DofCoordinates) (idx : List Int) (dim : Int) : ℚ :=
  match idx with
  | [] => 0
  | i :: rest => rest.foldl (fun acc j => max acc (c.get j dim)) (c.get i dim)

/-- Loop of `AxisAlignClusteringAlgorithm::largestDimension` over the axes
`0 .. dimension-1`, carrying `(maxDim, maxSize)`. -/
def largestDimensionLoop (c : DofCoordinates) (idx : List Int) :
    List Nat → Int × ℚ → Int × ℚ
  | [], acc => acc
  | i :: rest, (maxDim, maxSize) =>
    let size := Double.sub (bbMax c idx i) (bbMin c idx i)
    if size > maxSize then largestDimensionLoop c idx rest ((i : Int), size)
    else largestDimensionLoop c idx rest (maxDim, maxSize)

/-- `AxisAlignClusteringAlgorithm::largestDimension`. -/
def largestDimension (d : DofData) (indices : List Int) (current : Node) : Int :=
  (largestDimensionLoop d.coordinates (myIndices indices current)
    (List.range d.coordinates.dimension.toNat) (-1, -1)).1

/-- `AxisAlignClusteringAlgorithm::volume`: product of the box extents. -/
def volume (d : DofData) (indices : List Int) (current : Node) : ℚ :=
  (List.range d.coordinates.dimension.toNat).foldl
    (fun result (dim : Nat) =>
      Double.mul result (Double.sub (bbMax d.coordinates (myIndices indices current) (dim : Int))
        (bbMin d.coordinates (myIndices indices current) (dim : Int)))) 1

/-- `AxisAlignClusteringAlgorithm::sort`; `none` when the remainder is taken
modulo zero. -/
def sort (d : DofData) (indices : List Int) (current : Node)
    (axisIndex spatialDimension : Int) : Option (List Int) :=
  if axisIndex < 0 then
    some (sortByDimension d indices current (largestDimension d indices current))
  else
    let spatialDimension :=
      if spatialDimension < 0 then d.coordinates.dimension else spatialDimension
    if spatialDimension = 0 then none
    else some (sortByDimension d indices current
      (Int.tmod (axisIndex + current.depth) spatialDimension))

/-! ## Group-boundary adjustment shared by Geometric and Median bisection -/

/-- Loop `while (upper < size && group_index[upper] == group) ++upper`; the
first argument bounds the number of iterations. -/
def upperLoop (g : List Int) (current : Node) (group : Int) : Nat → Int → Option Int
  | 0, upper => some upper
  | n + 1, upper =>
    if upper < current.size then
      match groupAt g current upper with
      | none => none
      | some x => if x = group then upperLoop g current group n (upper + 1) else some upper
    else some upper

/-- Loop `while (lower >= 0 && group_index[lower] == group) --lower`; the first
argument bounds the number of iterations. -/
def lowerLoop (g : List Int) (current : Node) (group : Int) : Nat → Int → Option Int
  | 0, lower => some lower
  | n + 1, lower =>
    if lower ≥ 0 then
      match groupAt g current lower with
      | none => none
      | some x => if x = group then lowerLoop g current group n (lower - 1) else some lower
    else some lower

/-- The block "Ensure that we do not split inside a group" (lines 202-228 and
252-278): `closer upper lower` is the last tie-break test, which is the only
place where the two strategies differ. -/
def adjustSplit (d : DofData) (current : Node) (closer : Int → Int → Bool)
    (middleIndex : Int) : Option Int :=
  match d.group_index with
  | none => some middleIndex
  | some g =>
    match groupAt g current middleIndex, groupAt g current (middleIndex - 1) with
    | some group, some before =>
      if before = group then
        match upperLoop g current group (current.size - middleIndex).toNat middleIndex,
              lowerLoop g current group middleIndex.toNat (middleIndex - 1) with
        | some upper, some lower =>
          if lower < 0 ∧ upper = current.size then some middleIndex
          else if lower < 0 then some upper
          else if upper = current.size then some (lower + 1)
          else if closer upper lower then some upper
          else some (lower + 1)
        | _, _ => none
      else some middleIndex
    | _, _ => none

/-! ## Median bisection -/

/-- Configuration of an axis-aligned strategy: the base-class fields
`maxLeafSize_` and `divider_` and the fields `axisIndex_`,
`spatialDimension_`. -/
structure AxisAlign where
  maxLeafSize : Int
  divider : Int
  axisIndex : Int
  spatialDimension : Int
deriving DecidableEq, Repr

/-- The split index committed by iteration `i` of the loop of
`MedianBisectionAlgorithm::partition`: `size * i / divider_`, the product being
an `int`, moved by the adjustment block when groups are present. -/
def MedianBisectionAlgorithm.middleIndex (d : DofData) (current : Node) (divider i : Int) :
    Option Int :=
  adjustSplit d current
    (fun upper lower =>
      decide (int32 (upper + lower) < int32 (2 * Int.tdiv (int32 (current.size * i)) divider)))
    (Int.tdiv (int32 (current.size * i)) divider)

/-- Body of the loop `for (i = 1; i < divider_; i++)` of
`MedianBisectionAlgorithm::partition`, run for `n` more iterations from `i`,
carrying `previousIndex` and `children`. -/
def medianLoop (d : DofData) (current : Node) (divider : Int) :
    Nat → Int → Int → List Node → Option (Int × List Node)
  | 0, _, previousIndex, children => some (previousIndex, children)
  | n + 1, i, previousIndex, children =>
    match MedianBisectionAlgorithm.middleIndex d current divider i with
    | none => none
    | some middleIndex =>
      medianLoop d current divider n (i + 1) middleIndex
        (if middleIndex > previousIndex then
          children ++ [current.slice d (current.offset + previousIndex)
            (middleIndex - previousIndex)]
        else children)

/-- `MedianBisectionAlgorithm::partition`: the permutation after the sort and
the children, in the order they are pushed. -/
def MedianBisectionAlgorithm.partition (a : AxisAlign) (d : DofData) (indices : List Int)
    (current : Node) : Option (List Int × List Node) :=
  match sort d indices current a.axisIndex a.spatialDimension with
  | none => none
  | some sorted =>
    match medianLoop d current a.divider (a.divider - 1).toNat 1 0 [] with
    | none => none
    | some (previousIndex, children) =>
      some (sorted, children ++ [current.slice d (current.offset + previousIndex)
        (current.size - previousIndex)])

/-! ## Geometric bisection -/

/-- Loop `while (middleIndex < size && coord[myIndices[middleIndex] *
spatialDimension_ + dim] < middlePosition) middleIndex++`; the first argument
bounds the number of iterations. -/
def scanLoop (d : DofData) (indices : List Int) (current : Node)
    (spatialDimension dim : Int) (middlePosition : ℚ) : Nat → Int → Int
  | 0, middleIndex => middleIndex
  | n + 1, middleIndex =>
    if middleIndex < current.size ∧
        d.coordinates.flat (indexAt indices current middleIndex * spatialDimension + dim)
          < middlePosition then
      scanLoop d indices current spatialDimension dim middlePosition n (middleIndex + 1)
    else middleIndex

/-- Threshold `bbMin[dim] + (i / (double)divider_) * (bbMax[dim] - bbMin[dim])`,
each of its four operations rounded. -/
def middlePosition (d : DofData) (indices : List Int) (current : Node)
    (divider dim i : Int) : ℚ :=
  Double.add (bbMin d.coordinates (myIndices indices current) dim)
    (Double.mul (Double.div (i : ℚ) (divider : ℚ))
      (Double.sub (bbMax d.coordinates (myIndices indices current) dim)
        (bbMin d.coordinates (myIndices indices current) dim)))

/-- The split index committed by iteration `i` of the loop of
`GeometricBisectionAlgorithm::partition`: the scan from `previousIndex` up to
the threshold, moved by the adjustment block when groups are present. -/
def GeometricBisectionAlgorithm.middleIndex (d : DofData) (indices : List Int)
    (current : Node) (divider spatialDimension dim i previousIndex : Int) : Option Int :=
  adjustSplit d current
    (fun upper lower => decide
      (Double.add (d.coordinates.flat (indexAt indices current upper * spatialDimension + dim))
          (d.coordinates.flat (indexAt indices current lower * spatialDimension + dim))
        < Double.mul 2 (middlePosition d indices current divider dim i)))
    (scanLoop d indices current spatialDimension dim
      (middlePosition d indices current divider dim i)
      (current.size - previousIndex).toNat previousIndex)

/-- Body of the loop `for (i = 1; i < divider_; i++)` of
`GeometricBisectionAlgorithm::partition`, run for `n` more iterations from `i`,
carrying `previousIndex` and `children`. -/
def geometricLoop (d : DofData) (indices : List Int) (current : Node)
    (divider spatialDimension dim : Int) :
    Nat → Int → Int → List Node → Option (Int × List Node)
  | 0, _, previousIndex, children => some (previousIndex, children)
  | n + 1, i, previousIndex, children =>
    match GeometricBisectionAlgorithm.middleIndex d indices current divider spatialDimension
        dim i previousIndex with
    | none => none
    | some middleIndex =>
      geometricLoop d indices current divider spatialDimension dim n (i + 1) middleIndex
        (if middleIndex > previousIndex then
          children ++ [current.slice d (current.offset + previousIndex)
            (middleIndex - previousIndex)]
        else children)

/-- Value of `spatialDimension_` after the first statement of
`GeometricBisectionAlgorithm::partition`. -/
def GeometricBisectionAlgorithm.spatialDimension (a : AxisAlign) (d : DofData) : Int :=
  if a.spatialDimension < 0 then d.coordinates.dimension else a.spatialDimension

/-- Split axis chosen by `GeometricBisectionAlgorithm::partition`; `none` when
the remainder is taken modulo zero. -/
def GeometricBisectionAlgorithm.dim (a : AxisAlign) (d : DofData) (indices : List Int)
    (current : Node) : Option Int :=
  if a.axisIndex < 0 then some (largestDimension d indices current)
  else if GeometricBisectionAlgorithm.spatialDimension a d = 0 then none
  else some (Int.tmod (a.axisIndex + current.depth)
    (GeometricBisectionAlgorithm.spatialDimension a d))

/-- `GeometricBisectionAlgorithm::partition`: the permutation after the sort,
the children in the order they are pushed, and the strategy with its cached
`spatialDimension_`. -/
def GeometricBisectionAlgorithm.partition (a : AxisAlign) (d : DofData) (indices : List Int)
    (current : Node) : Option (List Int × List Node × AxisAlign) :=
  match GeometricBisectionAlgorithm.dim a d indices current with
  | none => none
  | some dim =>
    match geometricLoop d (sortByDimension d indices current dim) current a.divider
        (GeometricBisectionAlgorithm.spatialDimension a d) dim (a.divider - 1).toNat 1 0 [] with
    | none => none
    | some (previousIndex, children) =>
      some (sortByDimension d indices current dim,
        children ++ [current.slice d (current.offset + previousIndex)
          (current.size - previousIndex)],
        { a with spatialDimension := GeometricBisectionAlgorithm.spatialDimension a d })

/-! ## Hybrid bisection -/

/-- Loop of `HybridBisectionAlgorithm::partition` over the children:
`maxVolume = std::max(maxVolume, volume(child))` starting from `0.0`. -/
def maxVolume (d : DofData) (indices : List Int) (children : List Node) : ℚ :=
  children.foldl (fun acc child => max acc (volume d indices child)) 0

/-- `HybridBisectionAlgorithm::partition` on its two member strategies. -/
def HybridBisectionAlgorithm.partition (medianAlgorithm geometricAlgorithm : AxisAlign)
    (thresholdRatio : ℚ) (d : DofData) (indices : List Int) (current : Node) :
    Option (List Int × List Node × AxisAlign) :=
  match MedianBisectionAlgorithm.partition medianAlgorithm d indices current with
  | none => none
  | some (sorted, children) =>
    if children.length < 2 then some (sorted, children, geometricAlgorithm)
    else if maxVolume d sorted children
        > Double.mul thresholdRatio (volume d sorted current) then
      GeometricBisectionAlgorithm.partition geometricAlgorithm d sorted current
    else some (sorted, children, geometricAlgorithm)

/-! ## Span clustering helpers -/

/-- `LargeSpanComparator::operator()`: `vi < vj` on the two large-span flags. -/
def LargeSpanComparator (c : DofCoordinates) (threshold : ℚ) (dimension : Int)
    (i j : Int) : Bool :=
  (!decide (c.spanDiameter i dimension > threshold))
    && decide (c.spanDiameter j dimension > threshold)

/-- Loop `while (i >= 0 && coords.spanDiameter(indices[i], greatestDim) >
threshold) i--`; the first argument bounds the number of iterations. -/
def spanLoop (d : DofData) (indices : List Int) (current : Node)
    (greatestDim : Int) (threshold : ℚ) : Nat → Int → Int
  | 0, i => i
  | n + 1, i =>
    if i ≥ 0 ∧ d.coordinates.spanDiameter (indexAt indices current i) greatestDim > threshold
    then spanLoop d indices current greatestDim threshold n (i - 1)
    else i

/-- Threshold `aabb->extends(greatestDim) * ratio_` of
`SpanClusteringAlgorithm::partition`.  Modelled from the spec:
`AxisAlignedBoundingBox::greatestDim` and `extends` are declared in a header
outside the sources; the axis of largest extent and the box extent along it. -/
def spanThreshold (d : DofData) (indices : List Int) (current : Node) (ratio : ℚ) : ℚ :=
  Double.mul
    (Double.sub
      (bbMax d.coordinates (myIndices indices current) (largestDimension d indices current))
      (bbMin d.coordinates (myIndices indices current) (largestDimension d indices current)))
    ratio

/-- The forward permutation after the `std::stable_sort` of
`SpanClusteringAlgorithm::partition`, which moves the large-span DOFs to the
end of the range. -/
def SpanClusteringAlgorithm.sorted (d : DofData) (indices : List Int) (current : Node)
    (ratio : ℚ) : List Int :=
  sortRange (LargeSpanComparator d.coordinates (spanThreshold d indices current ratio)
    (largestDimension d indices current)) indices current

/-- The value of `i` after the loop of `SpanClusteringAlgorithm::partition`: the
last position of the range that does not hold a large-span DOF, `-1` when there
is none. -/
def SpanClusteringAlgorithm.i (d : DofData) (indices : List Int) (current : Node)
    (ratio : ℚ) : Int :=
  spanLoop d (SpanClusteringAlgorithm.sorted d indices current ratio) current
    (largestDimension d indices current) (spanThreshold d indices current ratio)
    current.size.toNat (current.size - 1)

/-- `largeSpanCluster` of `SpanClusteringAlgorithm::partition`; `none` for
`NULL`. -/
def SpanClusteringAlgorithm.largeSpanCluster (d : DofData) (indices : List Int)
    (current : Node) (ratio : ℚ) : Option Node :=
  if SpanClusteringAlgorithm.i d indices current ratio < current.size - 1 then
    some (current.slice d (current.offset + SpanClusteringAlgorithm.i d indices current ratio + 1)
      (current.size - SpanClusteringAlgorithm.i d indices current ratio - 1))
  else none

/-- `smallSpanCluster` of `SpanClusteringAlgorithm::partition`; `none` for
`NULL`. -/
def SpanClusteringAlgorithm.smallSpanCluster (d : DofData) (indices : List Int)
    (current : Node) (ratio : ℚ) : Option Node :=
  if SpanClusteringAlgorithm.i d indices current ratio ≥ 0 then
    some (current.slice d current.offset (SpanClusteringAlgorithm.i d indices current ratio + 1))
  else none

/-! ## The strategy family -/

/-- Fields of the base class `ClusteringAlgorithm`. -/
structure Base where
  maxLeafSize : Int
  divider : Int
deriving DecidableEq, Repr

/-- The clustering strategies; the decorators own the strategy they wrap. -/
inductive ClusteringAlgorithm where
  | geometric (a : AxisAlign)
  | median (a : AxisAlign)
  | hybrid (b : Base) (medianAlgorithm geometricAlgorithm : AxisAlign) (thresholdRatio : ℚ)
  | voidClustering (b : Base) (algo : ClusteringAlgorithm)
  | shuffle (b : Base) (algo : ClusteringAlgorithm) (fromDivider toDivider : Int)
  | span (b : Base) (algo : ClusteringAlgorithm) (ratio : ℚ)

/-- The value of `maxLeafSize_`. -/
def ClusteringAlgorithm.maxLeafSize : ClusteringAlgorithm → Int
  | geometric a => a.maxLeafSize
  | median a => a.maxLeafSize
  | hybrid b _ _ _ => b.maxLeafSize
  | voidClustering b _ => b.maxLeafSize
  | shuffle b _ _ _ => b.maxLeafSize
  | span b _ _ => b.maxLeafSize

/-- `ClusteringAlgorithm::getMaxLeafSize`. -/
def ClusteringAlgorithm.getMaxLeafSize (algo : ClusteringAlgorithm) (d : DofData) : Int :=
  if algo.maxLeafSize ≥ 0 then algo.maxLeafSize else d.settingsMaxLeafSize

/-- `ClusteringAlgorithm::getDivider`. -/
def ClusteringAlgorithm.getDivider : ClusteringAlgorithm → Int
  | geometric a => a.divider
  | median a => a.divider
  | hybrid b _ _ _ => b.divider
  | voidClustering b _ => b.divider
  | shuffle b _ _ _ => b.divider
  | span b _ _ => b.divider

/-- `ClusteringAlgorithm::setDivider` (`divider_ = divider`).  Modelled from the
spec: the Shuffle decorator's own version is declared in a header outside the
sources; it hands the branching factor to the strategy it wraps, whose `k` the
decorator varies. -/
def ClusteringAlgorithm.setDivider : ClusteringAlgorithm → Int → ClusteringAlgorithm
  | geometric a, k => geometric { a with divider := k }
  | median a, k => median { a with divider := k }
  | hybrid b m g t, k => hybrid { b with divider := k } m g t
  | voidClustering b algo, k => voidClustering { b with divider := k } algo
  | shuffle b algo f t, k => shuffle b (algo.setDivider k) f t
  | span b algo r, k => span { b with divider := k } algo r

/-- The children pushed by `VoidClusteringAlgorithm::partition` at an odd
depth: the whole range, then `divider_ - 1` empty ranges at its end. -/
def voidChildren (d : DofData) (current : Node) (divider : Int) : List Node :=
  current.slice d current.offset current.size ::
    List.replicate (divider - 1).toNat (current.slice d (current.offset + current.size) 0)

/-- The virtual method `partition`: the permutation after the call, the
children in the order they are pushed, and the strategy with its mutable
fields after the call. -/
def ClusteringAlgorithm.partition :
    ClusteringAlgorithm → DofData → List Int → Node →
      Option (List Int × List Node × ClusteringAlgorithm)
  | geometric a, d, indices, current =>
    match GeometricBisectionAlgorithm.partition a d indices current with
    | none => none
    | some (indices, children, a) => some (indices, children, geometric a)
  | median a, d, indices, current =>
    match MedianBisectionAlgorithm.partition a d indices current with
    | none => none
    | some (indices, children) => some (indices, children, median a)
  | hybrid b m g t, d, indices, current =>
    match HybridBisectionAlgorithm.partition m g t d indices current with
    | none => none
    | some (indices, children, g) => some (indices, children, hybrid b m g t)
  | voidClustering b algo, d, indices, current =>
    if Int.tmod current.depth 2 = 0 then
      match algo.partition d indices current with
      | none => none
      | some (indices, children, algo) => some (indices, children, voidClustering b algo)
    else some (indices, voidChildren d current b.divider, voidClustering b algo)
  | shuffle b algo fromDivider toDivider, d, indices, current =>
    match algo.partition d indices current with
    | none => none
    | some (indices, children, algo) =>
      let divider := if b.divider + 1 > toDivider then fromDivider else b.divider + 1
      some (indices, children,
        (shuffle { b with divider := divider } algo fromDivider toDivider).setDivider divider)
  | span b algo ratio, d, indices, current =>
    match SpanClusteringAlgorithm.smallSpanCluster d indices current ratio with
    | some smallSpanCluster =>
      match algo.partition d (SpanClusteringAlgorithm.sorted d indices current ratio)
          smallSpanCluster with
      | none => none
      | some (indices', children, algo') =>
        some (indices',
          match SpanClusteringAlgorithm.largeSpanCluster d indices current ratio with
          | some largeSpanCluster =>
            if children ≠ [] then children ++ [largeSpanCluster] else children
          | none => children,
          span b algo' ratio)
    | none => some (SpanClusteringAlgorithm.sorted d indices current ratio, [], span b algo ratio)

/-! ## Tree builder -/

/-- A node of the built tree with its attached children. -/
inductive ClusterTree where
  | node (current : Node) (children : List ClusterTree)

/-- Range and depth of the root of a subtree. -/
def ClusterTree.current : ClusterTree → Node
  | node current _ => current

/-- Children of the root of a subtree. -/
def ClusterTree.children : ClusterTree → List ClusterTree
  | node _ children => children

/-- Mutable state of a build: the schedule `algo_` of the builder (whose
strategies have mutable fields) and the forward permutation `indices()`. -/
structure BuildState where
  algo : List (Int × ClusteringAlgorithm)
  indices : List Int

/-- Loop of `ClusterTreeBuilder::getAlgorithm`: `pos` is the position of the
entry under the iterator, `last` the position and value of the entry `last`
points to. -/
def getAlgorithmLoop (depth : Int) :
    List (Int × ClusteringAlgorithm) → Nat → Option (Nat × ClusteringAlgorithm) →
      Option (Nat × ClusteringAlgorithm)
  | [], _, last => last
  | (first, second) :: rest, pos, last =>
    if first ≤ depth then getAlgorithmLoop depth rest (pos + 1) (some (pos, second))
    else last

/-- `ClusterTreeBuilder::getAlgorithm`: the entry the returned pointer
designates (its position in `algo_` and the strategy), `none` for `NULL`. -/
def getAlgorithm (algo : List (Int × ClusteringAlgorithm)) (depth : Int) :
    Option (Nat × ClusteringAlgorithm) :=
  getAlgorithmLoop depth algo 0 none

/-- Store the strategy designated by position `pos` after a call mutated it. -/
def setAlgorithm (algo : List (Int × ClusteringAlgorithm)) (pos : Nat)
    (a : ClusteringAlgorithm) : List (Int × ClusteringAlgorithm) :=
  algo.modify (fun entry => (entry.1, a)) pos

/-- Loop `for (i = 0; i < children.size(); ++i)` of `divide_recursive`:
`insertChild` gives the child the depth of its father plus one (modelled from
the spec: `Tree::insertChild` is declared in a header outside the sources; the
root has depth 0), then `recurse` is the recursive call. -/
def divideChildren (recurse : BuildState → Node → Option (ClusterTree × BuildState))
    (depth : Int) : BuildState → List Node → Option (List ClusterTree × BuildState)
  | st, [] => some ([], st)
  | st, child :: rest =>
    match recurse st { child with depth := depth + 1 } with
    | none => none
    | some (t, st) =>
      match divideChildren recurse depth st rest with
      | none => none
      | some (ts, st) => some (t :: ts, st)

/-- `ClusterTreeBuilder::divide_recursive`; the first argument bounds the depth
of the recursion, and `none` is returned when it is exhausted, when
`getAlgorithm` returns `NULL` or when `partition` reads outside an array. -/
def divide_recursive (d : DofData) :
    Nat → BuildState → Node → Option (ClusterTree × BuildState)
  | 0, _, _ => none
  | fuel + 1, st, current =>
    match getAlgorithm st.algo current.depth with
    | none => none
    | some (pos, algo) =>
      if current.size ≤ algo.getMaxLeafSize d then some (ClusterTree.node current [], st)
      else
        match algo.partition d st.indices current with
        | none => none
        | some (indices, children, algo) =>
          match divideChildren (divide_recursive d fuel) current.depth
              ⟨setAlgorithm st.algo pos algo, indices⟩ children with
          | none => none
          | some (ts, st) => some (ClusterTree.node current ts, st)

mutual
/-- Leaves of a subtree, left to right. -/
def ClusterTree.leaves : ClusterTree → List Node
  | .node current [] => [current]
  | .node _ (c :: cs) => ClusterTree.leavesList (c :: cs)
/-- Leaves of a list of subtrees, left to right. -/
def ClusterTree.leavesList : List ClusterTree → List Node
  | [] => []
  | c :: cs => c.leaves ++ ClusterTree.leavesList cs
end

mutual
/-- Every node of a subtree, paired with the ranges of its children, in
pre-order. -/
def ClusterTree.nodes : ClusterTree → List (Node × List Node)
  | .node current cs => (current, ClusterTree.roots cs) :: ClusterTree.nodesList cs
/-- Pre-order node list of a list of subtrees. -/
def ClusterTree.nodesList : List ClusterTree → List (Node × List Node)
  | [] => []
  | c :: cs => c.nodes ++ ClusterTree.nodesList cs
/-- Roots of a list of subtrees. -/
def ClusterTree.roots : List ClusterTree → List Node
  | [] => []
  | .node current _ :: cs => current :: ClusterTree.roots cs
end

/-! ## Concrete inputs -/

/-- Collinear points in one dimension: DOF `i` sits at `x = i`, without span
extents. -/
def collinear : DofCoordinates :=
  ⟨1, fun k => (k : ℚ), fun i _ => (i : ℚ), fun _ _ => 0⟩

/-- Build inputs over the collinear points with the given groups and default
leaf size; a fresh slice carries the depth of its father plus one. -/
def collinearData (group_index : Option (List Int)) (settingsMaxLeafSize : Int) : DofData :=
  ⟨collinear, group_index, settingsMaxLeafSize, fun depth => depth + 1⟩

/-- Largest-extent axis, branching factor 2, leaf size left to the default. -/
def bisect : AxisAlign := ⟨-1, 2, -1, -1⟩

/-! ## Vocabulary of the statements about groups -/

/-- The range of `current` lies inside a forward permutation of length `n`. -/
def InRange (n : Nat) (current : Node) : Prop :=
  0 ≤ current.offset ∧ 0 ≤ current.size ∧ current.offset + current.size ≤ n

/-- Both ends of the range of `current` lie inside an array of length `n`; the
size of the range may be negative. -/
def InArray (n : Nat) (current : Node) : Prop :=
  0 ≤ current.offset ∧ current.offset ≤ n ∧ 0 ≤ current.offset + current.size ∧
    current.offset + current.size ≤ n

/-- Frame of an operation on the range of `current`: `indices'` is a
rearrangement of `indices` that agrees with it at every position outside the
range. -/
def Frame (indices indices' : List Int) (current : Node) : Prop :=
  indices'.length = indices.length ∧ indices'.Perm indices ∧
  ∀ p : Nat, (p < current.offset.toNat ∨ current.offset.toNat + current.size.toNat ≤ p) →
    indices'[p]? = indices[p]?

/-- Eight collinear points stored out of order: DOF `i` sits at
`x = 3 i mod 8`. -/
def scattered : DofCoordinates :=
  ⟨1, fun k => ((3 * k % 8 : Int) : ℚ), fun i _ => ((3 * i % 8 : Int) : ℚ), fun _ _ => 0⟩

/-- Build inputs over the scattered points, without groups, default leaf
size 2. -/
def scatteredData : DofData := ⟨scattered, none, 2, fun depth => depth + 1⟩

/-- Hybrid bisection as the specification words it: run Median bisection; if
the largest ratio of a child's box volume to the volume of the node exceeds the
threshold, discard the children and run Geometric bisection on the node;
otherwise keep the children of Median bisection.  A ratio over a zero volume is
not a number and exceeds nothing. -/
def HybridBisectionAlgorithm.specification (medianAlgorithm geometricAlgorithm : AxisAlign)
    (thresholdRatio : ℚ) (d : DofData) (indices : List Int) (current : Node) :
    Option (List Int × List Node × AxisAlign) :=
  match MedianBisectionAlgorithm.partition medianAlgorithm d indices current with
  | none => none
  | some (sorted, children) =>
    if volume d sorted current ≠ 0 ∧
        ∃ child ∈ children, volume d sorted child / volume d sorted current > thresholdRatio then
      GeometricBisectionAlgorithm.partition geometricAlgorithm d sorted current
    else some (sorted, children, geometricAlgorithm)

/-- Four collinear points at `x = 0, 1, 2, 10`, without span extents. -/
def uneven : DofCoordinates :=
  ⟨1, fun k => (([0, 1, 2, 10] : List Int).getD k.toNat 0 : ℚ),
    fun i _ => (([0, 1, 2, 10] : List Int).getD i.toNat 0 : ℚ), fun _ _ => 0⟩

/-- Build inputs over the uneven points, without groups, default leaf size 1. -/
def unevenData : DofData := ⟨uneven, none, 1, fun depth => depth + 1⟩

/-- Four collinear points at `x = 0, 7, 8, 10`, without span extents. -/
def skewed : DofCoordinates :=
  ⟨1, fun k => (([0, 7, 8, 10] : List Int).getD k.toNat 0 : ℚ),
    fun i _ => (([0, 7, 8, 10] : List Int).getD i.toNat 0 : ℚ), fun _ _ => 0⟩

/-- Build inputs over the skewed points, without groups, default leaf size 1. -/
def skewedData : DofData := ⟨skewed, none, 1, fun depth => depth + 1⟩

/-- The value of `previousIndex` after `n` iterations of the loop of
`GeometricBisectionAlgorithm::partition` (it starts at 0). -/
def GeometricBisectionAlgorithm.previousIndex (d : DofData) (indices : List Int)
    (current : Node) (divider spatialDimension dim : Int) : Nat → Option Int
  | 0 => some 0
  | n + 1 =>
    match GeometricBisectionAlgorithm.previousIndex d indices current divider spatialDimension
        dim n with
    | none => none
    | some previousIndex =>
      GeometricBisectionAlgorithm.middleIndex d indices current divider spatialDimension dim
        ((n : Int) + 1) previousIndex

/-- The group id read at every position is the group id of the DOF stored at
that position of the forward permutation. -/
def GroupsAgree (g : List Int) (indices : List Int) : Prop :=
  ∀ p : Nat, p < indices.length → g.getD (indices.getD p 0).toNat 0 = g.getD p 0

/-- The strategy is Median or Geometric bisection. -/
def IsBisection : ClusteringAlgorithm → Prop
  | .median _ => True
  | .geometric _ => True
  | _ => False

/-- A sequence of `partition` calls made on one strategy object, each with its
permutation and node: the strategy keeps its mutable fields from one call to
the next.  The result is the strategy after the last call, `none` when some
call reads outside an array. -/
def ClusteringAlgorithm.partitionCalls (d : DofData) :
    ClusteringAlgorithm → List (List Int × Node) → Option ClusteringAlgorithm
  | algo, [] => some algo
  | algo, (indices, current) :: calls =>
    match algo.partition d indices current with
    | none => none
    | some (_, _, algo) => ClusteringAlgorithm.partitionCalls d algo calls

/-- Modelled from the spec: the constructor of the base class
`ClusteringAlgorithm` is declared in a header outside the sources; a strategy
built without further configuration has no leaf size of its own
(`maxLeafSize_ = -1`) and bisects (`divider_ = 2`). -/
def Base.fresh : Base := ⟨-1, 2⟩

/-- The virtual method `clone`.  `SpanClusteringAlgorithm::clone` builds a new
decorator from `algo_` and `ratio_` alone, so the copy has the base-class
fields of a strategy built without further configuration.  Modelled from the
spec: the `clone` of the other strategies is declared in a header outside the
sources; the copy carries the configuration of the strategy. -/
def ClusteringAlgorithm.clone : ClusteringAlgorithm → ClusteringAlgorithm
  | span _ algo ratio => span Base.fresh algo ratio
  | geometric a => geometric a
  | median a => median a
  | hybrid b m g t => hybrid b m g t
  | voidClustering b algo => voidClustering b algo
  | shuffle b algo f t => shuffle b algo f t

/-- Constructor of `ClusterTreeBuilder`: the schedule `algo_` holds a clone of
the root strategy at threshold 0. -/
def ClusterTreeBuilder.new (algo : ClusteringAlgorithm) :
    List (Int × ClusteringAlgorithm) :=
  [(0, algo.clone)]

/-- `ClusterTreeBuilder::addAlgorithm`: a clone of the strategy goes before the
first entry whose threshold is greater than `depth`, at the end when there is
none. -/
def addAlgorithm (depth : Int) (algo : ClusteringAlgorithm) :
    List (Int × ClusteringAlgorithm) → List (Int × ClusteringAlgorithm)
  | [] => [(depth, algo.clone)]
  | it :: rest =>
    if it.1 > depth then (depth, algo.clone) :: it :: rest
    else it :: addAlgorithm depth algo rest

/-- The schedule of a builder made for `root` after the calls
`addAlgorithm(depth, strategy)` listed in `calls`, first call first. -/
def ClusterTreeBuilder.schedule (root : ClusteringAlgorithm)
    (calls : List (Int × ClusteringAlgorithm)) : List (Int × ClusteringAlgorithm) :=
  calls.foldl (fun algo_ call => addAlgorithm call.1 call.2 algo_)
    (ClusterTreeBuilder.new root)

/-- Loop over the children in `divide_recursive`, keeping the `partition` calls
made by the recursive calls instead of the subtrees. -/
def divideChildrenCalls
    (recurse : BuildState → Node → Option (List (Node × ClusteringAlgorithm) × BuildState))
    (depth : Int) :
    BuildState → List Node → Option (List (Node × ClusteringAlgorithm) × BuildState)
  | st, [] => some ([], st)
  | st, child :: rest =>
    match recurse st { child with depth := depth + 1 } with
    | none => none
    | some (calls, st) =>
      match divideChildrenCalls recurse depth st rest with
      | none => none
      | some (calls', st) => some (calls ++ calls', st)

/-- `ClusterTreeBuilder::divide_recursive` once more, returning in place of the
tree the `partition` calls it makes, in the order they are made: each call with
the node it is made on and the strategy it is made through. -/
def divide_recursive_calls (d : DofData) :
    Nat → BuildState → Node → Option (List (Node × ClusteringAlgorithm) × BuildState)
  | 0, _, _ => none
  | fuel + 1, st, current =>
    match getAlgorithm st.algo current.depth with
    | none => none
    | some (pos, algo) =>
      if current.size ≤ algo.getMaxLeafSize d then some ([], st)
      else
        match algo.partition d st.indices current with
        | none => none
        | some (indices, children, algo') =>
          match divideChildrenCalls (divide_recursive_calls d fuel) current.depth
              ⟨setAlgorithm st.algo pos algo', indices⟩ children with
          | none => none
          | some (calls, st) => some ((current, algo) :: calls, st)

/-- The axis-aligned strategy with its `spatialDimension_` set as the first
statement of `GeometricBisectionAlgorithm::partition` sets it. -/
def AxisAlign.resolved (a : AxisAlign) (d : DofData) : AxisAlign :=
  { a with spatialDimension := GeometricBisectionAlgorithm.spatialDimension a d }

/-- The strategy with the cached `spatialDimension_` of every Geometric
bisection inside it set as the first `partition` call of that bisection sets
it. -/
def ClusteringAlgorithm.resolved (d : DofData) : ClusteringAlgorithm → ClusteringAlgorithm
  | geometric a => geometric (a.resolved d)
  | median a => median a
  | hybrid b m g t => hybrid b m (g.resolved d) t
  | voidClustering b algo => voidClustering b (algo.resolved d)
  | shuffle b algo f t => shuffle b (algo.resolved d) f t
  | span b algo r => span b (algo.resolved d) r

/-- The build state with every strategy of the schedule resolved. -/
def BuildState.resolved (d : DofData) (st : BuildState) : BuildState :=
  ⟨st.algo.map (fun e => (e.1, e.2.resolved d)), st.indices⟩

/-- The fields of `HMatSettings` (declared in a header outside the sources)
that `DefaultEngine::factorization` and `DefaultEngine::solve` read. -/
structure HMatSettings where
  useLu : Bool
  useLdlt : Bool
  cholesky : Bool
deriving DecidableEq, Repr

/-- The methods of `HMatrix` that the two engine calls can run. -/
inductive HMatrixCall where
  | lltDecomposition
  | ldltDecomposition
  | luDecomposition
  | solve
  | solveLdlt
deriving DecidableEq, Repr

/-- Modelled from the spec: `strongAssert` is a macro of `common/my_assert.h`,
outside the sources; a hard precondition check whose violation aborts the
program (`none`). -/
def strongAssert (condition : Bool) : Option Unit :=
  if condition then some () else none

/-- `DefaultEngine<T>::factorization`: the methods of `hmat` it runs, `none`
when the check aborts. -/
def DefaultEngine.factorization (settings : HMatSettings) : Option (List HMatrixCall) :=
  match strongAssert (xor settings.useLdlt settings.useLu) with
  | none => none
  | some _ =>
    if settings.useLdlt then
      if settings.cholesky then some [HMatrixCall.lltDecomposition]
      else some [HMatrixCall.ldltDecomposition]
    else some [HMatrixCall.luDecomposition]

/-- `DefaultEngine<T>::solve(FullMatrix<T>&)`: the methods of `hmat` it runs,
`none` when the check aborts. -/
def DefaultEngine.solve (settings : HMatSettings) : Option (List HMatrixCall) :=
  match strongAssert (xor settings.useLu settings.useLdlt) with
  | none => none
  | some _ =>
    if settings.useLu then some [HMatrixCall.solve]
    else if settings.useLdlt then some [HMatrixCall.solveLdlt]
    else some []

/-- Four points on a line, DOF `0` to `3` at `x = 2, 3, 0, 1`, without span
extents. -/
def displaced : DofCoordinates :=
  ⟨1, fun k => (([2, 3, 0, 1] : List Int).getD k.toNat 0 : ℚ),
    fun i _ => (([2, 3, 0, 1] : List Int).getD i.toNat 0 : ℚ), fun _ _ => 0⟩

/-- Build inputs over the displaced points: DOFs 0 and 1 form group 0, DOFs 2
and 3 form group 1, so that the group sorted first lies to the right of the
other; default leaf size 1. -/
def displacedData : DofData := ⟨displaced, some [0, 0, 1, 1], 1, fun depth => depth + 1⟩

/-- The group id of DOF `e`, read by DOF identity as `IndicesComparator` reads
it; `0` when no groups are given. -/
def DofData.groupOf (d : DofData) (e : Int) : Int :=
  match d.group_index with
  | none => 0
  | some g => g.getD e.toNat 0

/-- The two DOFs have the same sort key (group id, span centre along `dim`). -/
def sameKey (d : DofData) (dim : Int) (e x : Int) : Bool :=
  decide (d.groupOf x = d.groupOf e ∧
    d.coordinates.spanCenter x dim = d.coordinates.spanCenter e dim)

/-- Loop over the children in `divide_recursive`, keeping for every `partition`
call of the recursive calls the forward permutation it leaves. -/
def divideChildrenForward
    (recurse : BuildState → Node → Option (List (Node × List Int) × BuildState))
    (depth : Int) :
    BuildState → List Node → Option (List (Node × List Int) × BuildState)
  | st, [] => some ([], st)
  | st, child :: rest =>
    match recurse st { child with depth := depth + 1 } with
    | none => none
    | some (calls, st) =>
      match divideChildrenForward recurse depth st rest with
      | none => none
      | some (calls', st) => some (calls ++ calls', st)

/-- `ClusterTreeBuilder::divide_recursive` once more, returning in place of the
tree, for every `partition` call it makes and in the order they are made, the
node of the call and the forward permutation as the call leaves it. -/
def divide_recursive_forward (d : DofData) :
    Nat → BuildState → Node → Option (List (Node × List Int) × BuildState)
  | 0, _, _ => none
  | fuel + 1, st, current =>
    match getAlgorithm st.algo current.depth with
    | none => none
    | some (pos, algo) =>
      if current.size ≤ algo.getMaxLeafSize d then some ([], st)
      else
        match algo.partition d st.indices current with
        | none => none
        | some (indices, children, algo') =>
          match divideChildrenForward (divide_recursive_forward d fuel) current.depth
              ⟨setAlgorithm st.algo pos algo', indices⟩ children with
          | none => none
          | some (calls, st) => some ((current, indices) :: calls, st)

/-- The forward permutation as the constructor of `DofData` leaves it: the
identity on `n` DOFs. -/
def identityIndices (n : Nat) : List Int :=
  (List.range n).map (fun i : Nat => (i : Int))

theorem roundHalfEven_floor_le (q : ℚ) : ⌊q⌋ ≤ roundHalfEven q := by
  unfold roundHalfEven
  split_ifs <;> omega

theorem roundHalfEven_le_floor_add_one (q : ℚ) : roundHalfEven q ≤ ⌊q⌋ + 1 := by
  unfold roundHalfEven
  split_ifs <;> omega

theorem roundHalfEven_le_of_le_int (q : ℚ) (n : Int) (h : q ≤ n) : roundHalfEven q ≤ n := by
  rcases eq_or_lt_of_le h with e | hlt
  · rw [e]
    unfold roundHalfEven
    simp
  · have : ⌊q⌋ < n := Int.floor_lt.2 hlt
    have := roundHalfEven_le_floor_add_one q
    omega

theorem int_le_roundHalfEven (q : ℚ) (n : Int) (h : (n : ℚ) ≤ q) : n ≤ roundHalfEven q :=
  le_trans (Int.le_floor.2 h) (roundHalfEven_floor_le q)

theorem Double.roundPos_bounds (x : ℚ) (hx : 0 < x) :
    (2 : ℚ) ^ Int.log 2 x ≤ Double.roundPos x ∧
      Double.roundPos x ≤ (2 : ℚ) ^ (Int.log 2 x + 1) := by
  have h1 : (2 : ℚ) ^ Int.log 2 x ≤ x := Int.zpow_log_le_self (by norm_num) hx
  have h2 : x < (2 : ℚ) ^ (Int.log 2 x + 1) := Int.lt_zpow_succ_log_self (by norm_num) x
  have hp : (0 : ℚ) < 2 ^ (52 - Int.log 2 x) := zpow_pos (by norm_num) _
  have hq : (0 : ℚ) < 2 ^ (Int.log 2 x - 52) := zpow_pos (by norm_num) _
  have e1 : (2 : ℚ) ^ Int.log 2 x * 2 ^ (52 - Int.log 2 x) = ((2 ^ 52 : Int) : ℚ) := by
    rw [← zpow_add₀ (by norm_num : (2 : ℚ) ≠ 0)]
    have : Int.log 2 x + (52 - Int.log 2 x) = 52 := by ring
    rw [this]; norm_num
  have e2 : (2 : ℚ) ^ (Int.log 2 x + 1) * 2 ^ (52 - Int.log 2 x) = ((2 ^ 53 : Int) : ℚ) := by
    rw [← zpow_add₀ (by norm_num : (2 : ℚ) ≠ 0)]
    have : Int.log 2 x + 1 + (52 - Int.log 2 x) = 53 := by ring
    rw [this]; norm_num
  have e3 : ((2 ^ 52 : Int) : ℚ) * 2 ^ (Int.log 2 x - 52) = (2 : ℚ) ^ Int.log 2 x := by
    have : ((2 ^ 52 : Int) : ℚ) = (2 : ℚ) ^ (52 : Int) := by norm_num
    rw [this, ← zpow_add₀ (by norm_num : (2 : ℚ) ≠ 0)]
    congr 1; ring
  have e4 : ((2 ^ 53 : Int) : ℚ) * 2 ^ (Int.log 2 x - 52) = (2 : ℚ) ^ (Int.log 2 x + 1) := by
    have : ((2 ^ 53 : Int) : ℚ) = (2 : ℚ) ^ (53 : Int) := by norm_num
    rw [this, ← zpow_add₀ (by norm_num : (2 : ℚ) ≠ 0)]
    congr 1; ring
  have m1 : ((2 ^ 52 : Int) : ℚ) ≤ x * 2 ^ (52 - Int.log 2 x) := by
    rw [← e1]; exact mul_le_mul_of_nonneg_right h1 (le_of_lt hp)
  have m2 : x * 2 ^ (52 - Int.log 2 x) ≤ ((2 ^ 53 : Int) : ℚ) := by
    rw [← e2]; exact mul_le_mul_of_nonneg_right (le_of_lt h2) (le_of_lt hp)
  have r1 := int_le_roundHalfEven _ _ m1
  have r2 := roundHalfEven_le_of_le_int _ _ m2
  unfold Double.roundPos
  constructor
  · rw [← e3]
    exact mul_le_mul_of_nonneg_right (by exact_mod_cast r1) (le_of_lt hq)
  · rw [← e4]
    exact mul_le_mul_of_nonneg_right (by exact_mod_cast r2) (le_of_lt hq)

theorem Double.roundPos_pos (x : ℚ) (hx : 0 < x) : 0 < Double.roundPos x :=
  lt_of_lt_of_le (zpow_pos (by norm_num) _) (Double.roundPos_bounds x hx).1

theorem Double.round_zero : Double.round 0 = 0 := by
  simp [Double.round]

theorem Double.round_pos {x : ℚ} (h : 0 < x) : 0 < Double.round x := by
  unfold Double.round
  rw [if_pos h]
  exact Double.roundPos_pos x h

theorem Double.round_eq_zero_iff (x : ℚ) : Double.round x = 0 ↔ x = 0 := by
  constructor
  · intro h
    by_contra hne
    rcases lt_or_gt_of_ne hne with hlt | hgt
    · unfold Double.round at h
      rw [if_neg (not_lt.2 (le_of_lt hlt)), if_pos hlt] at h
      have := Double.roundPos_pos (-x) (by linarith)
      linarith
    · have := Double.round_pos hgt
      linarith
  · intro h; rw [h, Double.round_zero]

/-! ## 32-bit products -/

theorem tmod_two_eq_zero_iff (x : Int) : Int.tmod x 2 = 0 ↔ x % 2 = 0 := by
  rw [← Int.dvd_iff_tmod_eq_zero]
  omega

/-- C10: the Void decorator with branching factor `k ≥ 1`.  At an odd depth
`partition` leaves the permutation alone and returns exactly `k` children: the
first has the range of the node, the other `k - 1` have size 0 and sit at
`offset + size`.  At an even depth it returns what the wrapped strategy
returns. -/
theorem void_partition (b : Base) (algo : ClusteringAlgorithm) (d : DofData)
    (indices : List Int) (current : Node) (hk : 1 ≤ b.divider) :
    (current.depth % 2 = 1 →
      ∃ first rest,
        (ClusteringAlgorithm.voidClustering b algo).partition d indices current
          = some (indices, first :: rest, ClusteringAlgorithm.voidClustering b algo) ∧
        ((first :: rest).length : Int) = b.divider ∧
        first.offset = current.offset ∧ first.size = current.size ∧
        ∀ c ∈ rest, c.offset = current.offset + current.size ∧ c.size = 0) ∧
    (current.depth % 2 = 0 →
      (ClusteringAlgorithm.voidClustering b algo).partition d indices current
        = (algo.partition d indices current).map
            (fun r => (r.1, r.2.1, ClusteringAlgorithm.voidClustering b r.2.2))) := by
  constructor
  · intro hodd
    have h : ¬ Int.tmod current.depth 2 = 0 := by
      rw [tmod_two_eq_zero_iff]; omega
    refine ⟨current.slice d current.offset current.size,
      List.replicate (b.divider - 1).toNat (current.slice d (current.offset + current.size) 0),
      ?_, ?_, rfl, rfl, ?_⟩
    · rw [ClusteringAlgorithm.partition, if_neg h]; rfl
    · simp only [List.length_cons, List.length_replicate]
      push_cast
      omega
    · intro c hc
      rw [List.eq_of_mem_replicate hc]
      exact ⟨rfl, rfl⟩
  · intro heven
    have h : Int.tmod current.depth 2 = 0 := (tmod_two_eq_zero_iff _).2 heven
    rw [ClusteringAlgorithm.partition, if_pos h]
    cases algo.partition d indices current with
    | none => rfl
    | some r => rfl

/-- C10 at `k = 3` and depth 1: one child with the range of the node and two
empty children. -/
theorem void_partition_witness :
    ∃ first rest,
      (ClusteringAlgorithm.voidClustering ⟨-1, 3⟩ (.median bisect)).partition
          (collinearData none 1) [0, 1, 2, 3] ⟨1, 0, 4⟩
        = some ([0, 1, 2, 3], first :: rest,
            ClusteringAlgorithm.voidClustering ⟨-1, 3⟩ (.median bisect)) ∧
      ((first :: rest).length : Int) = 3 ∧
      first.offset = 0 ∧ first.size = 4 ∧
      ∀ c ∈ rest, c.offset = 0 + 4 ∧ c.size = 0 :=
  (void_partition ⟨-1, 3⟩ (.median bisect) (collinearData none 1) [0, 1, 2, 3] ⟨1, 0, 4⟩
    (by decide)).1 (by decide)

theorem Frame.trans {a b c : List Int} {current : Node} (h : Frame a b current)
    (h' : Frame b c current) : Frame a c current :=
  ⟨h'.1.trans h.1, h'.2.1.trans h.2.1, fun p hp => (h'.2.2 p hp).trans (h.2.2 p hp)⟩

theorem stable_sort_perm (lt : Int → Int → Bool) (l : List Int) : (stable_sort lt l).Perm l :=
  List.perm_insertionSort _ l

theorem myIndices_length (indices : List Int) (current : Node)
    (h : InRange indices.length current) :
    (myIndices indices current).length = current.size.toNat := by
  obtain ⟨h0, h1, h2⟩ := h
  simp only [myIndices, List.length_take, List.length_drop]
  omega

theorem sortRange_frame (lt : Int → Int → Bool) (indices : List Int) (current : Node)
    (h : InRange indices.length current) :
    Frame indices (sortRange lt indices current) current := by
  have hlen := myIndices_length indices current h
  obtain ⟨h0, h1, h2⟩ := h
  have hsl : (stable_sort lt (myIndices indices current)).length = current.size.toNat := by
    rw [(stable_sort_perm lt _).length_eq, hlen]
  have htl : (List.take current.offset.toNat indices).length = current.offset.toNat := by
    rw [List.length_take]; omega
  have hsplit : indices = indices.take current.offset.toNat ++ myIndices indices current
      ++ indices.drop (current.offset.toNat + current.size.toNat) := by
    simp only [myIndices]
    rw [List.append_assoc, ← List.drop_drop, List.take_append_drop, List.take_append_drop]
  refine ⟨?_, ?_, ?_⟩
  · simp only [sortRange, List.length_append, hsl, htl, List.length_drop]
    omega
  · conv_rhs => rw [hsplit]
    simp only [sortRange]
    exact List.Perm.append_right _ (List.Perm.append_left _ (stable_sort_perm lt _))
  · intro p hp
    simp only [sortRange]
    rcases hp with hp | hp
    · rw [List.append_assoc, List.getElem?_append_left (by omega), List.getElem?_take_of_lt hp]
    · rw [List.getElem?_append_right (by simp only [List.length_append, hsl, htl]; omega)]
      simp only [List.length_append, hsl, htl, List.getElem?_drop]
      congr 1
      omega

theorem getAlgorithmLoop_mem (depth : Int) :
    ∀ (l : List (Int × ClusteringAlgorithm)) (pos : Nat)
      (last : Option (Nat × ClusteringAlgorithm)) (p : Nat) (a : ClusteringAlgorithm),
      getAlgorithmLoop depth l pos last = some (p, a) →
      last = some (p, a) ∨ (pos ≤ p ∧ ∃ t, l[p - pos]? = some (t, a)) := by
  intro l
  induction l with
  | nil => intro pos last p a h; left; simpa [getAlgorithmLoop] using h
  | cons e rest ih =>
    intro pos last p a h
    obtain ⟨first, second⟩ := e
    rw [getAlgorithmLoop] at h
    by_cases hc : first ≤ depth
    · rw [if_pos hc] at h
      rcases ih (pos + 1) _ p a h with e1 | ⟨e1, t, e2⟩
      · simp only [Option.some.injEq, Prod.mk.injEq] at e1
        right
        refine ⟨by omega, first, ?_⟩
        rw [← e1.1, ← e1.2]
        simp
      · right
        refine ⟨by omega, t, ?_⟩
        have : p - pos = (p - (pos + 1)) + 1 := by omega
        rw [this, List.getElem?_cons_succ]
        exact e2
    · rw [if_neg hc] at h
      exact Or.inl h

theorem getAlgorithm_mem (l : List (Int × ClusteringAlgorithm)) (depth : Int) (p : Nat)
    (a : ClusteringAlgorithm) (h : getAlgorithm l depth = some (p, a)) :
    ∃ t, l[p]? = some (t, a) := by
  rcases getAlgorithmLoop_mem depth l 0 none p a h with e | ⟨-, t, e⟩
  · exact absurd e (by simp)
  · exact ⟨t, by simpa using e⟩

theorem setAlgorithm_mem (l : List (Int × ClusteringAlgorithm)) (pos : Nat)
    (a' : ClusteringAlgorithm) (e : Int × ClusteringAlgorithm)
    (h : e ∈ setAlgorithm l pos a') : e ∈ l ∨ e.2 = a' := by
  unfold setAlgorithm at h
  obtain ⟨n, hn⟩ := List.mem_iff_getElem?.1 h
  rw [List.getElem?_modify] at hn
  cases hl : l[n]? with
  | none => rw [hl] at hn; simp at hn
  | some x =>
    rw [hl] at hn
    simp only [Option.map_eq_map, Option.map_some', Option.some.injEq] at hn
    by_cases hp : pos = n
    · rw [if_pos hp] at hn
      right; rw [← hn]
    · rw [if_neg hp] at hn
      left; rw [← hn]; exact List.getElem?_mem hl

theorem myIndices_getElem? (indices : List Int) (current : Node) (j : Nat) :
    (myIndices indices current)[j]? =
      if j < current.size.toNat then indices[current.offset.toNat + j]? else none := by
  simp only [myIndices]
  by_cases h : j < current.size.toNat
  · rw [if_pos h, List.getElem?_take_of_lt h, List.getElem?_drop]
  · rw [if_neg h, List.getElem?_eq_none]
    rw [List.length_take]
    omega

theorem myIndices_sortRange (lt : Int → Int → Bool) (indices : List Int) (current : Node)
    (hin : InRange indices.length current) :
    myIndices (sortRange lt indices current) current
      = stable_sort lt (myIndices indices current) := by
  have hlen := myIndices_length indices current hin
  obtain ⟨h0, h1, h2⟩ := hin
  have hsl : (stable_sort lt (myIndices indices current)).length = current.size.toNat := by
    rw [(stable_sort_perm lt _).length_eq, hlen]
  have htl : (List.take current.offset.toNat indices).length = current.offset.toNat := by
    rw [List.length_take]; omega
  conv_lhs => rw [myIndices, sortRange, List.append_assoc]
  rw [List.drop_append_of_le_length (by omega), List.drop_of_length_le (by omega),
    List.nil_append, List.take_append_of_le_length (by omega), List.take_of_length_le (by omega)]

theorem foldl_min_spec {α : Type} (f : α → ℚ) :
    ∀ (rest : List α) (init : ℚ),
      rest.foldl (fun acc j => min acc (f j)) init ≤ init ∧
      (∀ j ∈ rest, rest.foldl (fun acc j => min acc (f j)) init ≤ f j) ∧
      (rest.foldl (fun acc j => min acc (f j)) init = init ∨
        ∃ j ∈ rest, rest.foldl (fun acc j => min acc (f j)) init = f j) := by
  intro rest
  induction rest with
  | nil => intro init; simp
  | cons x xs ih =>
    intro init
    obtain ⟨h1, h2, h3⟩ := ih (min init (f x))
    simp only [List.foldl_cons]
    refine ⟨le_trans h1 (min_le_left _ _), ?_, ?_⟩
    · intro j hj
      rcases List.mem_cons.1 hj with e | e
      · subst e; exact le_trans h1 (min_le_right _ _)
      · exact h2 j e
    · rcases h3 with e | ⟨j, hj, e⟩
      · rcases min_choice init (f x) with c | c
        · left; rw [e, c]
        · right; exact ⟨x, List.mem_cons_self _ _, by rw [e, c]⟩
      · right; exact ⟨j, List.mem_cons_of_mem _ hj, e⟩

theorem foldl_max_spec {α : Type} (f : α → ℚ) :
    ∀ (rest : List α) (init : ℚ),
      init ≤ rest.foldl (fun acc j => max acc (f j)) init ∧
      (∀ j ∈ rest, f j ≤ rest.foldl (fun acc j => max acc (f j)) init) ∧
      (rest.foldl (fun acc j => max acc (f j)) init = init ∨
        ∃ j ∈ rest, rest.foldl (fun acc j => max acc (f j)) init = f j) := by
  intro rest
  induction rest with
  | nil => intro init; simp
  | cons x xs ih =>
    intro init
    obtain ⟨h1, h2, h3⟩ := ih (max init (f x))
    simp only [List.foldl_cons]
    refine ⟨le_trans (le_max_left _ _) h1, ?_, ?_⟩
    · intro j hj
      rcases List.mem_cons.1 hj with e | e
      · subst e; exact le_trans (le_max_right _ _) h1
      · exact h2 j e
    · rcases h3 with e | ⟨j, hj, e⟩
      · rcases max_choice init (f x) with c | c
        · left; rw [e, c]
        · right; exact ⟨x, List.mem_cons_self _ _, by rw [e, c]⟩
      · right; exact ⟨j, List.mem_cons_of_mem _ hj, e⟩

theorem bbMin_mem (c : DofCoordinates) (idx : List Int) (dim : Int) (h : idx ≠ []) :
    ∃ e ∈ idx, bbMin c idx dim = c.get e dim := by
  cases idx with
  | nil => exact absurd rfl h
  | cons i rest =>
    obtain ⟨-, -, h3⟩ := foldl_min_spec (fun j => c.get j dim) rest (c.get i dim)
    rcases h3 with e | ⟨j, hj, e⟩
    · exact ⟨i, List.mem_cons_self _ _, e⟩
    · exact ⟨j, List.mem_cons_of_mem _ hj, e⟩

theorem bbMax_mem (c : DofCoordinates) (idx : List Int) (dim : Int) (h : idx ≠ []) :
    ∃ e ∈ idx, bbMax c idx dim = c.get e dim := by
  cases idx with
  | nil => exact absurd rfl h
  | cons i rest =>
    obtain ⟨-, -, h3⟩ := foldl_max_spec (fun j => c.get j dim) rest (c.get i dim)
    rcases h3 with e | ⟨j, hj, e⟩
    · exact ⟨i, List.mem_cons_self _ _, e⟩
    · exact ⟨j, List.mem_cons_of_mem _ hj, e⟩

/-- What the unamended wording of C7 misses.  On the points `0, 1, 2, 10` with
a Median branching factor of 1 and threshold `1/2`, Median bisection returns
the node as its only child, whose volume ratio to the node is 1; the code
returns early with that child, where the ratio rule prescribes the two
children `[0,3)`, `[3,4)` of Geometric bisection.  On the points `0, 7, 8, 10`
with the threshold the `double` nearest to `7/10`, the largest Median child has
volume 7 and the node volume 10; the ratio `7/10` exceeds the threshold, but
the `double` product of the threshold and 10 is 7, which 7 does not exceed, so
the code keeps the Median children `[0,2)`, `[2,4)` where the ratio rule
prescribes `[0,1)`, `[1,4)`. -/
theorem hybrid_differs_from_ratio_rule :
    ((HybridBisectionAlgorithm.partition ⟨-1, 1, -1, -1⟩ bisect (1 / 2) unevenData [0, 1, 2, 3]
        ⟨0, 0, 4⟩).map (fun r => r.2.1) = some [⟨1, 0, 4⟩] ∧
      (HybridBisectionAlgorithm.specification ⟨-1, 1, -1, -1⟩ bisect (1 / 2) unevenData
        [0, 1, 2, 3] ⟨0, 0, 4⟩).map (fun r => r.2.1) = some [⟨1, 0, 3⟩, ⟨1, 3, 1⟩]) ∧
    (Double.round (7 / 10) < 7 / 10 ∧
      Double.mul (Double.round (7 / 10)) 10 = 7 ∧
      (HybridBisectionAlgorithm.partition bisect bisect (Double.round (7 / 10)) skewedData
        [0, 1, 2, 3] ⟨0, 0, 4⟩).map (fun r => r.2.1) = some [⟨1, 0, 2⟩, ⟨1, 2, 2⟩] ∧
      (HybridBisectionAlgorithm.specification bisect bisect (Double.round (7 / 10)) skewedData
        [0, 1, 2, 3] ⟨0, 0, 4⟩).map (fun r => r.2.1) = some [⟨1, 0, 1⟩, ⟨1, 1, 3⟩]) := by
  refine ⟨⟨?_, ?_⟩, ?_, ?_, ?_, ?_⟩ <;> decide!

theorem indicesComparator_false_iff (axis : Int) (d : DofData) (a b : Int) :
    IndicesComparator axis d b a = false ↔
      match d.group_index with
      | none => d.coordinates.spanCenter a axis ≤ d.coordinates.spanCenter b axis
      | some g =>
        g.getD a.toNat 0 < g.getD b.toNat 0 ∨
          (g.getD a.toNat 0 = g.getD b.toNat 0 ∧
            d.coordinates.spanCenter a axis ≤ d.coordinates.spanCenter b axis) := by
  unfold IndicesComparator
  cases d.group_index with
  | none => simp
  | some g =>
    dsimp only
    by_cases h : g.getD b.toNat 0 = g.getD a.toNat 0
    · rw [if_pos h]
      simp only [decide_eq_false_iff_not, not_lt]
      constructor
      · intro hle; exact Or.inr ⟨h.symm, hle⟩
      · rintro (hlt | ⟨-, hle⟩)
        · omega
        · exact hle
    · rw [if_neg h]
      simp only [decide_eq_false_iff_not, not_lt]
      constructor
      · intro hle; exact Or.inl (by omega)
      · rintro (hlt | ⟨he, -⟩)
        · omega
        · exact absurd he.symm h

/-- After `sortByDimension` the range is ordered by (group id, span centre):
no later element compares below an earlier one. -/
theorem stable_sort_indices_sorted (axis : Int) (d : DofData) (l : List Int) :
    (stable_sort (IndicesComparator axis d) l).Pairwise
      (fun a b => IndicesComparator axis d b a = false) := by
  haveI : IsTotal Int (fun a b => IndicesComparator axis d b a = false) := ⟨by
    intro a b
    simp only [indicesComparator_false_iff]
    cases d.group_index with
    | none => exact le_total _ _
    | some g =>
      dsimp only
      rcases lt_trichotomy (g.getD a.toNat 0) (g.getD b.toNat 0) with h | h | h
      · exact Or.inl (Or.inl h)
      · rcases le_total (d.coordinates.spanCenter a axis) (d.coordinates.spanCenter b axis)
          with h' | h'
        · exact Or.inl (Or.inr ⟨h, h'⟩)
        · exact Or.inr (Or.inr ⟨h.symm, h'⟩)
      · exact Or.inr (Or.inl h)⟩
  haveI : IsTrans Int (fun a b => IndicesComparator axis d b a = false) := ⟨by
    intro a b c
    simp only [indicesComparator_false_iff]
    cases d.group_index with
    | none => exact le_trans
    | some g =>
      dsimp only
      rintro (h1 | ⟨h1, h1'⟩) (h2 | ⟨h2, h2'⟩)
      · exact Or.inl (by omega)
      · exact Or.inl (by omega)
      · exact Or.inl (by omega)
      · exact Or.inr ⟨by omega, le_trans h1' h2'⟩⟩
  exact List.sorted_insertionSort _ l

theorem myIndices_getD (indices : List Int) (current : Node) (j : Nat)
    (hin : InRange indices.length current) (hj : j < current.size.toNat) :
    (myIndices indices current)[j]? = some (indices.getD (current.offset.toNat + j) 0) := by
  obtain ⟨a1, a2, a3⟩ := hin
  rw [myIndices_getElem?, if_pos hj]
  have hlt : current.offset.toNat + j < indices.length := by omega
  rw [List.getD_eq_getElem?_getD, List.getElem?_eq_getElem hlt]
  rfl

/-- Sorting a range by (group id, coordinate) keeps the positional group ids in
agreement with the DOFs when the group ids are non-decreasing. -/
theorem sortByDimension_groupsAgree (d : DofData) (g : List Int)
    (hg : d.group_index = some g) (indices : List Int) (current : Node) (dim : Int)
    (hin : InRange indices.length current) (hlen : g.length = indices.length)
    (hmono : g.Pairwise (fun x y => x ≤ y)) (hJ : GroupsAgree g indices) :
    GroupsAgree g (sortByDimension d indices current dim) := by
  have hf : Frame indices (sortByDimension d indices current dim) current :=
    sortRange_frame _ indices current hin
  have hin' : InRange (sortByDimension d indices current dim).length current := by
    rw [hf.1]; exact hin
  have hing : InRange g.length current := by rw [hlen]; exact hin
  have hM : myIndices (sortByDimension d indices current dim) current
      = stable_sort (IndicesComparator dim d) (myIndices indices current) :=
    myIndices_sortRange _ indices current hin
  -- the group ids of the sorted range and the ids read by position
  have hA : ((myIndices (sortByDimension d indices current dim) current).map
      (fun e => g.getD e.toNat 0)).Pairwise (fun x y => x ≤ y) := by
    rw [List.pairwise_map, hM]
    refine (stable_sort_indices_sorted dim d _).imp ?_
    intro a b hab
    rw [indicesComparator_false_iff, hg] at hab
    dsimp only at hab
    rcases hab with h | ⟨h, -⟩
    · exact le_of_lt h
    · exact le_of_eq h
  have hB : (myIndices g current).Pairwise (fun x y => x ≤ y) :=
    (hmono.sublist (List.drop_sublist _ _)).sublist (List.take_sublist _ _)
  have hMB : (myIndices indices current).map (fun e => g.getD e.toNat 0)
      = myIndices g current := by
    apply List.ext_getElem?
    intro j
    by_cases hj : j < current.size.toNat
    · rw [List.getElem?_map, myIndices_getD indices current j hin hj,
        myIndices_getD g current j hing hj]
      simp only [Option.map_some', Option.some.injEq]
      exact hJ _ (by obtain ⟨a1, a2, a3⟩ := hin; omega)
    · rw [List.getElem?_eq_none (by rw [List.length_map, myIndices_length _ _ hin]; omega),
        List.getElem?_eq_none (by rw [myIndices_length _ _ hing]; omega)]
  have hperm : ((myIndices (sortByDimension d indices current dim) current).map
      (fun e => g.getD e.toNat 0)).Perm (myIndices g current) := by
    rw [← hMB, hM]
    exact (stable_sort_perm _ _).map _
  have hEq := List.eq_of_perm_of_sorted hperm hA hB
  intro p hp
  rw [hf.1] at hp
  by_cases hout : p < current.offset.toNat ∨ current.offset.toNat + current.size.toNat ≤ p
  · have := hf.2.2 p hout
    have e : (sortByDimension d indices current dim).getD p 0 = indices.getD p 0 := by
      simp only [List.getD_eq_getElem?_getD, this]
    rw [e]
    exact hJ p hp
  · have hj : p - current.offset.toNat < current.size.toNat := by omega
    have e1 := myIndices_getD (sortByDimension d indices current dim) current
      (p - current.offset.toNat) hin' hj
    have e2 := myIndices_getD g current (p - current.offset.toNat) hing hj
    have e3 : current.offset.toNat + (p - current.offset.toNat) = p := by omega
    rw [e3] at e1 e2
    have e4 : ((myIndices (sortByDimension d indices current dim) current).map
        (fun e => g.getD e.toNat 0))[p - current.offset.toNat]?
        = some (g.getD ((sortByDimension d indices current dim).getD p 0).toNat 0) := by
      rw [List.getElem?_map, e1]; rfl
    rw [hEq, e2] at e4
    exact (Option.some.inj e4).symm
theorem sort_eq_sortByDimension (d : DofData) (indices : List Int) (current : Node)
    (axisIndex sd : Int) (sorted : List Int)
    (h : sort d indices current axisIndex sd = some sorted) :
    ∃ dim, sorted = sortByDimension d indices current dim := by
  unfold sort at h
  by_cases h1 : axisIndex < 0
  · rw [if_pos h1] at h
    exact ⟨_, (Option.some.inj h).symm⟩
  · rw [if_neg h1] at h
    simp only at h
    by_cases h2 : (if sd < 0 then d.coordinates.dimension else sd) = 0
    · rw [if_pos h2] at h
      exact absurd h (by simp)
    · rw [if_neg h2] at h
      exact ⟨_, (Option.some.inj h).symm⟩

theorem groupAt_eq (g : List Int) (current : Node) (q : Int)
    (h0 : 0 ≤ current.offset + q) (h1 : current.offset + q < g.length) :
    groupAt g current q = some (g.getD (current.offset + q).toNat 0) := by
  unfold groupAt
  rw [if_pos ⟨h0, h1⟩]

theorem shuffle_next (f t : Int) (j : Nat) (hft : f ≤ t) :
    (if f + (j : Int) % (t - f + 1) + 1 > t then f else f + (j : Int) % (t - f + 1) + 1) =
      f + ((j + 1 : Nat) : Int) % (t - f + 1) := by
  have hm : 0 < t - f + 1 := by omega
  have h0 := Int.emod_nonneg (j : Int) (ne_of_gt hm)
  have h1 := Int.emod_lt_of_pos (j : Int) hm
  have e : ((j + 1 : Nat) : Int) % (t - f + 1) = ((j : Int) % (t - f + 1) + 1) % (t - f + 1) := by
    push_cast
    exact (Int.emod_add_emod _ _ _).symm
  rw [e]
  by_cases h : f + (j : Int) % (t - f + 1) + 1 > t
  · rw [if_pos h]
    have : (j : Int) % (t - f + 1) + 1 = t - f + 1 := by omega
    rw [this, Int.emod_self]; omega
  · rw [if_neg h, Int.emod_eq_of_lt (a := (j : Int) % (t - f + 1) + 1) (by omega) (by omega)]
    omega

theorem shuffle_partition_step (d : DofData) (mls k f t : Int) (algo : ClusteringAlgorithm)
    (indices : List Int) (current : Node) :
    (ClusteringAlgorithm.shuffle ⟨mls, k⟩ algo f t).partition d indices current =
      (algo.partition d indices current).map (fun r => (r.1, r.2.1,
        ClusteringAlgorithm.shuffle ⟨mls, if k + 1 > t then f else k + 1⟩
          (r.2.2.setDivider (if k + 1 > t then f else k + 1)) f t)) := by
  rw [ClusteringAlgorithm.partition]
  cases h : algo.partition d indices current with
  | none => rfl
  | some r => obtain ⟨i, c, a⟩ := r; rfl

theorem shuffle_partitionCalls (d : DofData) (mls f t : Int) (hft : f ≤ t)
    (calls : List (List Int × Node)) :
    ∀ (j : Nat) (algo s : ClusteringAlgorithm),
      ClusteringAlgorithm.partitionCalls d
        (ClusteringAlgorithm.shuffle ⟨mls, f + (j : Int) % (t - f + 1)⟩ algo f t) calls = some s →
      ∃ algo', s = ClusteringAlgorithm.shuffle
          ⟨mls, f + ((j + calls.length : Nat) : Int) % (t - f + 1)⟩ algo' f t ∧
        (calls ≠ [] → ∃ algo'' : ClusteringAlgorithm, algo' =
          algo''.setDivider (f + ((j + calls.length : Nat) : Int) % (t - f + 1))) := by
  induction calls with
  | nil =>
    intro j algo s h
    simp only [ClusteringAlgorithm.partitionCalls, Option.some.injEq] at h
    exact ⟨algo, by simp [← h], fun h => absurd rfl h⟩
  | cons c calls ih =>
    intro j algo s h
    obtain ⟨indices, current⟩ := c
    rw [ClusteringAlgorithm.partitionCalls, shuffle_partition_step] at h
    cases hp : algo.partition d indices current with
    | none => rw [hp] at h; simp at h
    | some r =>
      rw [hp] at h
      simp only [Option.map_some'] at h
      rw [shuffle_next f t j hft] at h
      obtain ⟨algo', hs, hd⟩ := ih (j + 1) _ s h
      have e : j + 1 + calls.length = j + ((indices, current) :: calls).length := by
        simp only [List.length_cons]; omega
      rw [e] at hs hd
      refine ⟨algo', hs, fun _ => ?_⟩
      cases calls with
      | nil =>
        simp only [ClusteringAlgorithm.partitionCalls, Option.some.injEq] at h
        rw [hs] at h
        simp only [ClusteringAlgorithm.shuffle.injEq] at h
        exact ⟨r.2.2, by simpa using h.2.1.symm⟩
      | cons c' calls' => exact hd (by simp)

/-- C11: the Shuffle decorator with `fromDivider ≤ toDivider`.  Each `partition`
call delegates to the wrapped strategy and then sets the branching factor to
`k + 1`, or to `fromDivider` when `k + 1` exceeds `toDivider`, and hands it to
the wrapped strategy.  Starting from `k = fromDivider`, the factor after `n`
calls, which is the one in force at the `n`-th call counted from 0, is
`fromDivider + n mod (toDivider - fromDivider + 1)`; it lies in
`[fromDivider, toDivider]`. -/
theorem shuffle_divider_cycle (d : DofData) (maxLeafSize fromDivider toDivider : Int)
    (hft : fromDivider ≤ toDivider) :
    (∀ (k : Int) (algo : ClusteringAlgorithm) (indices : List Int) (current : Node),
      (ClusteringAlgorithm.shuffle ⟨maxLeafSize, k⟩ algo fromDivider toDivider).partition
          d indices current =
        (algo.partition d indices current).map (fun r => (r.1, r.2.1,
          ClusteringAlgorithm.shuffle
            ⟨maxLeafSize, if k + 1 > toDivider then fromDivider else k + 1⟩
            (r.2.2.setDivider (if k + 1 > toDivider then fromDivider else k + 1))
            fromDivider toDivider))) ∧
    ∀ (calls : List (List Int × Node)) (algo s : ClusteringAlgorithm),
      ClusteringAlgorithm.partitionCalls d
        (ClusteringAlgorithm.shuffle ⟨maxLeafSize, fromDivider⟩ algo fromDivider toDivider)
        calls = some s →
      s.getDivider = fromDivider + (calls.length : Int) % (toDivider - fromDivider + 1) ∧
      fromDivider ≤ s.getDivider ∧ s.getDivider ≤ toDivider ∧
      ∃ algo', s = ClusteringAlgorithm.shuffle ⟨maxLeafSize, s.getDivider⟩ algo'
          fromDivider toDivider ∧
        (calls ≠ [] → ∃ algo'' : ClusteringAlgorithm, algo' = algo''.setDivider s.getDivider) := by
  refine ⟨fun k algo indices current => shuffle_partition_step d _ _ _ _ _ _ _, ?_⟩
  intro calls algo s h
  have h' : ClusteringAlgorithm.partitionCalls d
      (ClusteringAlgorithm.shuffle
        ⟨maxLeafSize, fromDivider + ((0 : Nat) : Int) % (toDivider - fromDivider + 1)⟩
        algo fromDivider toDivider) calls = some s := by
    simpa using h
  obtain ⟨algo', hs, hd⟩ :=
    shuffle_partitionCalls d maxLeafSize fromDivider toDivider hft calls 0 algo s h'
  rw [Nat.zero_add] at hs hd
  have hm : 0 < toDivider - fromDivider + 1 := by omega
  have h0 := Int.emod_nonneg (calls.length : Int) (ne_of_gt hm)
  have h1 := Int.emod_lt_of_pos (calls.length : Int) hm
  have hg : s.getDivider =
      fromDivider + (calls.length : Int) % (toDivider - fromDivider + 1) := by
    rw [hs]; rfl
  refine ⟨hg, by omega, by omega, algo', ?_, ?_⟩
  · rw [hg]; exact hs
  · rw [hg]; exact hd

/-- Witness for C11: four calls of Shuffle from 2 to 4 over Median on six
collinear points leave the branching factor 3. -/
theorem shuffle_divider_cycle_witness :
    (2 : Int) ≤ 4 ∧ ∃ s, ClusteringAlgorithm.partitionCalls (collinearData none 1)
      (ClusteringAlgorithm.shuffle ⟨-1, 2⟩ (.median bisect) 2 4)
      (List.replicate 4 ([0, 1, 2, 3, 4, 5], ⟨0, 0, 6⟩)) = some s ∧ s.getDivider = 3 := by
  refine ⟨by decide, ?_⟩
  obtain ⟨s, hs⟩ := Option.isSome_iff_exists.1 (by decide! :
    (ClusteringAlgorithm.partitionCalls (collinearData none 1)
      (ClusteringAlgorithm.shuffle ⟨-1, 2⟩ (.median bisect) 2 4)
      (List.replicate 4 ([0, 1, 2, 3, 4, 5], ⟨0, 0, 6⟩))).isSome = true)
  exact ⟨s, hs, ((shuffle_divider_cycle (collinearData none 1) (-1) 2 4 (by decide)).2
    _ _ s hs).1.trans (by decide)⟩

/-! ## The strategy schedule -/

theorem mem_addAlgorithm (depth : Int) (algo : ClusteringAlgorithm)
    (e : Int × ClusteringAlgorithm) :
    ∀ l : List (Int × ClusteringAlgorithm),
      e ∈ addAlgorithm depth algo l ↔ e = (depth, algo.clone) ∨ e ∈ l := by
  intro l
  induction l with
  | nil => simp [addAlgorithm]
  | cons it rest ih =>
    rw [addAlgorithm]
    by_cases h : it.1 > depth
    · rw [if_pos h]; simp
    · rw [if_neg h, List.mem_cons, ih, List.mem_cons]; tauto

theorem addAlgorithm_sorted (depth : Int) (algo : ClusteringAlgorithm) :
    ∀ l : List (Int × ClusteringAlgorithm), l.Pairwise (fun x y => x.1 ≤ y.1) →
      (addAlgorithm depth algo l).Pairwise (fun x y => x.1 ≤ y.1) := by
  intro l
  induction l with
  | nil => intro _; simp [addAlgorithm]
  | cons it rest ih =>
    intro hs
    rw [addAlgorithm]
    rw [List.pairwise_cons] at hs
    by_cases h : it.1 > depth
    · rw [if_pos h, List.pairwise_cons, List.pairwise_cons]
      refine ⟨fun y hy => ?_, hs⟩
      rcases List.mem_cons.1 hy with e | hy
      · rw [e]; exact le_of_lt h
      · exact le_trans (le_of_lt h) (hs.1 y hy)
    · rw [if_neg h, List.pairwise_cons]
      refine ⟨fun y hy => ?_, ih hs.2⟩
      rcases (mem_addAlgorithm depth algo y rest).1 hy with e | hy
      · rw [e]; exact not_lt.1 h
      · exact hs.1 y hy

theorem addAlgorithm_filter (depth : Int) (algo : ClusteringAlgorithm) (th : Int) :
    ∀ l : List (Int × ClusteringAlgorithm), l.Pairwise (fun x y => x.1 ≤ y.1) →
      (addAlgorithm depth algo l).filter (fun e => decide (e.1 = th)) =
        l.filter (fun e => decide (e.1 = th)) ++
          [(depth, algo.clone)].filter (fun e => decide (e.1 = th)) := by
  intro l
  induction l with
  | nil => intro _; simp [addAlgorithm]
  | cons it rest ih =>
    intro hs
    rw [addAlgorithm]
    rw [List.pairwise_cons] at hs
    by_cases h : it.1 > depth
    · rw [if_pos h]
      by_cases ht : depth = th
      · have hnil : (it :: rest).filter (fun e => decide (e.1 = th)) = [] := by
          rw [List.filter_eq_nil_iff]
          intro e he
          have : it.1 ≤ e.1 := by
            rcases List.mem_cons.1 he with e1 | he
            · rw [e1]
            · exact hs.1 e he
          simp only [decide_eq_true_eq]
          omega
        rw [List.filter_cons, if_pos (by simpa using ht), hnil]
        simp [ht]
      · have hn : [(depth, algo.clone)].filter (fun e => decide (e.1 = th)) = [] := by
          simp [ht]
        rw [hn, List.append_nil, List.filter_cons, if_neg (by simpa using ht)]
    · rw [if_neg h, List.filter_cons, List.filter_cons, ih hs.2]
      by_cases ht : it.1 = th
      · rw [if_pos (by simpa using ht), if_pos (by simpa using ht), List.cons_append]
      · rw [if_neg (by simpa using ht), if_neg (by simpa using ht)]

theorem schedule_inv (calls : List (Int × ClusteringAlgorithm)) :
    ∀ algo_ chron : List (Int × ClusteringAlgorithm),
      algo_.Pairwise (fun x y => x.1 ≤ y.1) →
      (∀ th : Int, algo_.filter (fun e => decide (e.1 = th)) =
        chron.filter (fun e => decide (e.1 = th))) →
      (calls.foldl (fun algo_ call => addAlgorithm call.1 call.2 algo_) algo_).Pairwise
          (fun x y => x.1 ≤ y.1) ∧
        ∀ th : Int,
          (calls.foldl (fun algo_ call => addAlgorithm call.1 call.2 algo_) algo_).filter
              (fun e => decide (e.1 = th)) =
            (chron ++ calls.map (fun e => (e.1, e.2.clone))).filter
              (fun e => decide (e.1 = th)) := by
  induction calls with
  | nil => intro algo_ chron hs hf; simpa using ⟨hs, hf⟩
  | cons c calls ih =>
    intro algo_ chron hs hf
    rw [List.foldl_cons]
    have := ih (addAlgorithm c.1 c.2 algo_) (chron ++ [(c.1, c.2.clone)])
      (addAlgorithm_sorted _ _ _ hs)
      (fun th => by rw [addAlgorithm_filter _ _ _ _ hs, hf th, List.filter_append])
    simpa using this

theorem getAlgorithmLoop_above (depth : Int) (l : List (Int × ClusteringAlgorithm)) (pos : Nat)
    (last : Option (Nat × ClusteringAlgorithm)) (h : ∀ e ∈ l, depth < e.1) :
    getAlgorithmLoop depth l pos last = last := by
  cases l with
  | nil => rfl
  | cons e rest =>
    obtain ⟨first, second⟩ := e
    rw [getAlgorithmLoop, if_neg (not_le.2 (h _ (List.mem_cons_self _ _)))]

theorem getAlgorithmLoop_sorted (depth : Int) :
    ∀ (l : List (Int × ClusteringAlgorithm)) (pos : Nat)
      (last : Option (Nat × ClusteringAlgorithm)),
      l.Pairwise (fun x y => x.1 ≤ y.1) → (∃ e ∈ l, e.1 ≤ depth) →
      ∃ (p : Nat) (th : Int) (a : ClusteringAlgorithm),
        getAlgorithmLoop depth l pos last = some (pos + p, a) ∧ l[p]? = some (th, a) ∧
          th ≤ depth ∧ ∀ (q : Nat) (e : Int × ClusteringAlgorithm),
            l[q]? = some e → e.1 ≤ depth → q ≤ p := by
  intro l
  induction l with
  | nil => intro pos last _ h; obtain ⟨e, he, _⟩ := h; cases he
  | cons it rest ih =>
    intro pos last hs hex
    obtain ⟨first, second⟩ := it
    rw [List.pairwise_cons] at hs
    have hfirst : first ≤ depth := by
      obtain ⟨e, he, hle⟩ := hex
      rcases List.mem_cons.1 he with e1 | he
      · rw [e1] at hle; exact hle
      · exact le_trans (hs.1 e he) hle
    rw [getAlgorithmLoop, if_pos hfirst]
    by_cases hr : ∃ e ∈ rest, e.1 ≤ depth
    · obtain ⟨p, th, a, h1, h2, h3, h4⟩ := ih (pos + 1) (some (pos, second)) hs.2 hr
      refine ⟨p + 1, th, a, ?_, ?_, h3, ?_⟩
      · rw [h1]; congr 2; omega
      · rw [List.getElem?_cons_succ]; exact h2
      · intro q e hq hle
        cases q with
        | zero => omega
        | succ q =>
          rw [List.getElem?_cons_succ] at hq
          have := h4 q e hq hle
          omega
    · have hr' : ∀ e ∈ rest, depth < e.1 := by
        intro e he
        by_contra hc
        exact hr ⟨e, he, not_lt.1 hc⟩
      refine ⟨0, first, second, ?_, by simp, hfirst, ?_⟩
      · rw [getAlgorithmLoop_above depth rest _ _ hr']; rfl
      · intro q e hq hle
        cases q with
        | zero => exact le_refl _
        | succ q =>
          rw [List.getElem?_cons_succ] at hq
          have := hr' e (List.getElem?_mem hq)
          omega

/-- C12: strategy schedule lookup.  For every builder (a clone of the root
strategy stored at threshold 0) and every sequence of
`addAlgorithm(depth, strategy)` calls, each of which stores a clone of its
strategy, the schedule is sorted by threshold, and for every depth `d ≥ 0` the
lookup `getAlgorithm(d)` is not `NULL`: it returns the strategy of the last
entry whose threshold is at most `d`, whose threshold is the largest one that
is at most `d`, and which is the clone made by the most recent call among those
that carry that threshold. -/
theorem schedule_lookup (root : ClusteringAlgorithm)
    (calls : List (Int × ClusteringAlgorithm)) (depth : Int) (hd : 0 ≤ depth) :
    (ClusterTreeBuilder.schedule root calls).Pairwise (fun x y => x.1 ≤ y.1) ∧
    ∃ (pos : Nat) (th : Int) (a : ClusteringAlgorithm),
      getAlgorithm (ClusterTreeBuilder.schedule root calls) depth = some (pos, a) ∧
      (ClusterTreeBuilder.schedule root calls)[pos]? = some (th, a) ∧ th ≤ depth ∧
      (∀ e ∈ ClusterTreeBuilder.schedule root calls, e.1 ≤ depth → e.1 ≤ th) ∧
      (∀ (q : Nat) (e : Int × ClusteringAlgorithm),
        (ClusterTreeBuilder.schedule root calls)[q]? = some e → e.1 ≤ depth → q ≤ pos) ∧
      ((((0, root) :: calls).map (fun e => (e.1, e.2.clone))).filter
        (fun e => decide (e.1 = th))).getLast? = some (th, a) := by
  obtain ⟨hs, hf⟩ := schedule_inv calls [(0, root.clone)] [(0, root.clone)]
    (List.pairwise_singleton _ _) (fun _ => rfl)
  have hsched : calls.foldl (fun algo_ call => addAlgorithm call.1 call.2 algo_)
      [(0, root.clone)] = ClusterTreeBuilder.schedule root calls := rfl
  rw [hsched] at hs hf
  have hroot : (0, root.clone) ∈ ClusterTreeBuilder.schedule root calls := by
    have : (0, root.clone) ∈ (ClusterTreeBuilder.schedule root calls).filter
        (fun e => decide (e.1 = 0)) := by
      rw [hf 0]; simp
    exact (List.mem_filter.1 this).1
  obtain ⟨p, th, a, h1, h2, h3, h4⟩ :=
    getAlgorithmLoop_sorted depth _ 0 none hs ⟨(0, root.clone), hroot, hd⟩
  rw [Nat.zero_add] at h1
  refine ⟨hs, p, th, a, h1, h2, h3, ?_, h4, ?_⟩
  · intro e he hle
    obtain ⟨q, hq⟩ := List.mem_iff_getElem?.1 he
    have hqp := h4 q e hq hle
    rcases Nat.lt_or_ge q p with hlt | hge
    · obtain ⟨hq1, hq2⟩ := List.getElem?_eq_some_iff.1 hq
      obtain ⟨hp1, hp2⟩ := List.getElem?_eq_some_iff.1 h2
      have := List.pairwise_iff_getElem.1 hs q p hq1 hp1 hlt
      rw [hq2, hp2] at this
      exact this
    · have : q = p := by omega
      rw [this, h2] at hq
      rw [← Option.some.inj hq]
  · rw [List.singleton_append] at hf
    rw [List.map_cons, ← hf th]
    obtain ⟨hp1, hp2⟩ := List.getElem?_eq_some_iff.1 h2
    have hsplit : ClusterTreeBuilder.schedule root calls =
        (ClusterTreeBuilder.schedule root calls).take p ++ [(th, a)] ++
          (ClusterTreeBuilder.schedule root calls).drop (p + 1) := by
      conv_lhs => rw [← List.take_append_drop (p + 1) (ClusterTreeBuilder.schedule root calls)]
      rw [List.take_succ, h2]; rfl
    have hnil : ((ClusterTreeBuilder.schedule root calls).drop (p + 1)).filter
        (fun e => decide (e.1 = th)) = [] := by
      rw [List.filter_eq_nil_iff]
      intro e he
      obtain ⟨q, hq⟩ := List.mem_iff_getElem?.1 he
      rw [List.getElem?_drop] at hq
      simp only [decide_eq_true_eq]
      intro heq
      have := h4 _ e hq (by omega)
      omega
    rw [hsplit, List.filter_append, List.filter_append, hnil, List.append_nil]
    simp

/-- Witness for C12: with Geometric and then a Span decorator configured with
leaf size 7 and `k = 3` both added at threshold 2, and Median added at
threshold 5, the lookup at depth 3 returns the clone of the strategy added last
at threshold 2, whose leaf size and branching factor are those of a strategy
built without further configuration. -/
theorem schedule_lookup_witness :
    (0 : Int) ≤ 3 ∧ ∃ pos, getAlgorithm (ClusterTreeBuilder.schedule (.median bisect)
      [(2, .geometric bisect), (5, .median bisect),
        (2, .span ⟨7, 3⟩ (.median bisect) 1)]) 3 =
        some (pos, .span ⟨-1, 2⟩ (.median bisect) 1) := by
  refine ⟨by decide, ?_⟩
  obtain ⟨_, pos, th, a, h1, h2, h3, h4, _, h6⟩ := schedule_lookup (.median bisect)
    [(2, .geometric bisect), (5, .median bisect),
      (2, .span ⟨7, 3⟩ (.median bisect) 1)] 3 (by decide)
  have hsched : ClusterTreeBuilder.schedule (.median bisect)
      [(2, .geometric bisect), (5, .median bisect),
        (2, .span ⟨7, 3⟩ (.median bisect) 1)] =
      [(0, .median bisect), (2, .geometric bisect),
        (2, .span ⟨-1, 2⟩ (.median bisect) 1), (5, .median bisect)] := by
    simp [ClusterTreeBuilder.schedule, ClusterTreeBuilder.new, addAlgorithm,
      ClusteringAlgorithm.clone, Base.fresh]
  have hth : th = 2 := by
    have hmem := List.getElem?_mem h2
    have h2le := h4 (2, .geometric bisect) (by rw [hsched]; simp) (by decide)
    rw [hsched] at hmem
    simp only [List.mem_cons, Prod.mk.injEq, List.mem_singleton, List.not_mem_nil,
      or_false] at hmem
    rcases hmem with h | h | h | h <;> omega
  rw [hth] at h6
  simp [ClusteringAlgorithm.clone, Base.fresh] at h6
  subst h6
  exact ⟨pos, h1⟩

/-! ## The leaf rule and the calls of `partition` -/

theorem divideChildrenCalls_state
    (recurse : BuildState → Node → Option (ClusterTree × BuildState))
    (recurse' : BuildState → Node → Option (List (Node × ClusteringAlgorithm) × BuildState))
    (h : ∀ st c, (recurse' st c).map Prod.snd = (recurse st c).map Prod.snd) (depth : Int) :
    ∀ (children : List Node) (st : BuildState),
      (divideChildrenCalls recurse' depth st children).map Prod.snd =
        (divideChildren recurse depth st children).map Prod.snd := by
  intro children
  induction children with
  | nil => intro st; rfl
  | cons child rest ih =>
    intro st
    rw [divideChildrenCalls, divideChildren]
    have h1 := h st { child with depth := depth + 1 }
    cases hr' : recurse' st { child with depth := depth + 1 } with
    | none =>
      rw [hr'] at h1
      cases hr : recurse st { child with depth := depth + 1 } with
      | none => rfl
      | some r => rw [hr] at h1; simp at h1
    | some r' =>
      rw [hr'] at h1
      cases hr : recurse st { child with depth := depth + 1 } with
      | none => rw [hr] at h1; simp at h1
      | some r =>
        rw [hr] at h1
        simp only [Option.map_some', Option.some.injEq] at h1
        obtain ⟨calls, st1⟩ := r'
        obtain ⟨t, st2⟩ := r
        simp only at h1
        subst h1
        have h2 := ih st1
        dsimp only
        cases hc' : divideChildrenCalls recurse' depth st1 rest with
        | none =>
          rw [hc'] at h2
          cases hc : divideChildren recurse depth st1 rest with
          | none => rfl
          | some r => rw [hc] at h2; simp at h2
        | some c' =>
          rw [hc'] at h2
          cases hc : divideChildren recurse depth st1 rest with
          | none => rw [hc] at h2; simp at h2
          | some c =>
            rw [hc] at h2
            simpa using h2

theorem divide_recursive_calls_state (d : DofData) :
    ∀ (fuel : Nat) (st : BuildState) (current : Node),
      (divide_recursive_calls d fuel st current).map Prod.snd =
        (divide_recursive d fuel st current).map Prod.snd := by
  intro fuel
  induction fuel with
  | zero => intro st current; rfl
  | succ fuel ih =>
    intro st current
    rw [divide_recursive_calls, divide_recursive]
    cases hg : getAlgorithm st.algo current.depth with
    | none => rfl
    | some pa =>
      obtain ⟨pos, algo⟩ := pa
      dsimp only
      by_cases hl : current.size ≤ algo.getMaxLeafSize d
      · rw [if_pos hl, if_pos hl]; rfl
      · rw [if_neg hl, if_neg hl]
        cases hp : algo.partition d st.indices current with
        | none => rfl
        | some pr =>
          obtain ⟨indices, children, algo'⟩ := pr
          dsimp only
          have h2 := divideChildrenCalls_state (divide_recursive d fuel)
            (divide_recursive_calls d fuel) ih current.depth children
            ⟨setAlgorithm st.algo pos algo', indices⟩
          cases hc' : divideChildrenCalls (divide_recursive_calls d fuel) current.depth
              ⟨setAlgorithm st.algo pos algo', indices⟩ children with
          | none =>
            rw [hc'] at h2
            cases hc : divideChildren (divide_recursive d fuel) current.depth
                ⟨setAlgorithm st.algo pos algo', indices⟩ children with
            | none => rfl
            | some r => rw [hc] at h2; simp at h2
          | some c' =>
            rw [hc'] at h2
            cases hc : divideChildren (divide_recursive d fuel) current.depth
                ⟨setAlgorithm st.algo pos algo', indices⟩ children with
            | none => rw [hc] at h2; simp at h2
            | some c =>
              rw [hc] at h2
              simpa using h2

theorem divideChildrenCalls_depth
    (recurse : BuildState → Node → Option (List (Node × ClusteringAlgorithm) × BuildState))
    (h : ∀ st c calls st', recurse st c = some (calls, st') → ∀ e ∈ calls, c.depth ≤ e.1.depth)
    (depth : Int) :
    ∀ (children : List Node) (st : BuildState) (calls : List (Node × ClusteringAlgorithm))
      (st' : BuildState), divideChildrenCalls recurse depth st children = some (calls, st') →
      ∀ e ∈ calls, depth + 1 ≤ e.1.depth := by
  intro children
  induction children with
  | nil =>
    intro st calls st' hc e he
    simp only [divideChildrenCalls, Option.some.injEq, Prod.mk.injEq] at hc
    rw [← hc.1] at he; cases he
  | cons child rest ih =>
    intro st calls st' hc e he
    rw [divideChildrenCalls] at hc
    cases hr : recurse st { child with depth := depth + 1 } with
    | none => rw [hr] at hc; simp at hc
    | some r =>
      obtain ⟨calls1, st1⟩ := r
      rw [hr] at hc
      dsimp only at hc
      cases hc2 : divideChildrenCalls recurse depth st1 rest with
      | none => rw [hc2] at hc; simp at hc
      | some r2 =>
        obtain ⟨calls2, st2⟩ := r2
        rw [hc2] at hc
        simp only [Option.some.injEq, Prod.mk.injEq] at hc
        rw [← hc.1] at he
        rcases List.mem_append.1 he with he | he
        · exact h _ _ _ _ hr e he
        · exact ih st1 calls2 st2 hc2 e he

theorem divide_recursive_calls_depth (d : DofData) :
    ∀ (fuel : Nat) (st : BuildState) (current : Node)
      (calls : List (Node × ClusteringAlgorithm)) (st' : BuildState),
      divide_recursive_calls d fuel st current = some (calls, st') →
      ∀ e ∈ calls, current.depth ≤ e.1.depth := by
  intro fuel
  induction fuel with
  | zero => intro st current calls st' h; simp [divide_recursive_calls] at h
  | succ fuel ih =>
    intro st current calls st' h e he
    rw [divide_recursive_calls] at h
    cases hg : getAlgorithm st.algo current.depth with
    | none => rw [hg] at h; simp at h
    | some pa =>
      obtain ⟨pos, algo⟩ := pa
      rw [hg] at h
      dsimp only at h
      by_cases hl : current.size ≤ algo.getMaxLeafSize d
      · rw [if_pos hl] at h
        simp only [Option.some.injEq, Prod.mk.injEq] at h
        rw [← h.1] at he; cases he
      · rw [if_neg hl] at h
        cases hp : algo.partition d st.indices current with
        | none => rw [hp] at h; simp at h
        | some pr =>
          obtain ⟨indices, children, algo'⟩ := pr
          rw [hp] at h
          dsimp only at h
          cases hc : divideChildrenCalls (divide_recursive_calls d fuel) current.depth
              ⟨setAlgorithm st.algo pos algo', indices⟩ children with
          | none => rw [hc] at h; simp at h
          | some c =>
            obtain ⟨calls1, st1⟩ := c
            rw [hc] at h
            simp only [Option.some.injEq, Prod.mk.injEq] at h
            rw [← h.1] at he
            rcases List.mem_cons.1 he with e1 | he
            · rw [e1]
            · have := divideChildrenCalls_depth _ ih current.depth children _ _ _ hc e he
              omega

/-- C13: the leaf rule.  Let `algo` be the strategy effective at the depth of a
node; its leaf-size bound is the value of the instance when that is `≥ 0` and
the process-wide default otherwise.  When the size of the node is at most the
bound, `divide_recursive` returns the node without children, makes no
`partition` call and leaves the permutation and the strategies unchanged.
When the size is greater, the first thing it does is to call `partition` of
`algo` on the node, and among all the `partition` calls of the recursion
exactly one is made on this node. -/
theorem divide_recursive_leaf_rule (d : DofData) (fuel : Nat) (st : BuildState)
    (current : Node) (pos : Nat) (algo : ClusteringAlgorithm)
    (hg : getAlgorithm st.algo current.depth = some (pos, algo)) :
    algo.getMaxLeafSize d =
      (if algo.maxLeafSize ≥ 0 then algo.maxLeafSize else d.settingsMaxLeafSize) ∧
    (current.size ≤ algo.getMaxLeafSize d →
      divide_recursive d (fuel + 1) st current = some (ClusterTree.node current [], st) ∧
      divide_recursive_calls d (fuel + 1) st current = some ([], st)) ∧
    (algo.getMaxLeafSize d < current.size →
      (algo.partition d st.indices current = none →
        divide_recursive d (fuel + 1) st current = none) ∧
      (divide_recursive_calls d (fuel + 1) st current).map Prod.snd =
        (divide_recursive d (fuel + 1) st current).map Prod.snd ∧
      ∀ (calls : List (Node × ClusteringAlgorithm)) (st' : BuildState),
        divide_recursive_calls d (fuel + 1) st current = some (calls, st') →
        calls.head? = some (current, algo) ∧
          calls.filter (fun e => decide (e.1 = current)) = [(current, algo)]) := by
  refine ⟨rfl, ?_, ?_⟩
  · intro hl
    rw [divide_recursive, divide_recursive_calls, hg]
    dsimp only
    rw [if_pos hl, if_pos hl]
    exact ⟨rfl, rfl⟩
  · intro hl
    refine ⟨?_, divide_recursive_calls_state d _ _ _, ?_⟩
    · intro hp
      rw [divide_recursive, hg]
      dsimp only
      rw [if_neg (not_le.2 hl), hp]
    intro calls st' h
    rw [divide_recursive_calls, hg] at h
    dsimp only at h
    rw [if_neg (not_le.2 hl)] at h
    cases hp : algo.partition d st.indices current with
    | none => rw [hp] at h; simp at h
    | some pr =>
      obtain ⟨indices, children, algo'⟩ := pr
      rw [hp] at h
      dsimp only at h
      cases hc : divideChildrenCalls (divide_recursive_calls d fuel) current.depth
          ⟨setAlgorithm st.algo pos algo', indices⟩ children with
      | none => rw [hc] at h; simp at h
      | some c =>
        obtain ⟨calls1, st1⟩ := c
        rw [hc] at h
        simp only [Option.some.injEq, Prod.mk.injEq] at h
        rw [← h.1]
        refine ⟨rfl, ?_⟩
        rw [List.filter_cons, if_pos (by simp), List.filter_eq_nil_iff.2]
        intro e he
        have := divideChildrenCalls_depth _ (divide_recursive_calls_depth d fuel)
          current.depth children _ _ _ hc e he
        simp only [decide_eq_true_eq]
        intro heq
        rw [heq] at this
        omega

/-- Witness for C13: with Median and the default leaf size 2, a node of two
DOFs is left as a leaf and a node of four DOFs is partitioned once. -/
theorem divide_recursive_leaf_rule_witness :
    divide_recursive (collinearData none 2) 3 ⟨[(0, .median bisect)], [0, 1, 2, 3]⟩ ⟨1, 0, 2⟩ =
        some (ClusterTree.node ⟨1, 0, 2⟩ [], ⟨[(0, .median bisect)], [0, 1, 2, 3]⟩) ∧
      ∃ st', divide_recursive_calls (collinearData none 2) 3
        ⟨[(0, .median bisect)], [0, 1, 2, 3]⟩ ⟨0, 0, 4⟩ =
          some ([(⟨0, 0, 4⟩, .median bisect)], st') := by
  refine ⟨((divide_recursive_leaf_rule (collinearData none 2) 2
    ⟨[(0, .median bisect)], [0, 1, 2, 3]⟩ ⟨1, 0, 2⟩ 0 (.median bisect) rfl).2.1
      (by decide)).1, ?_⟩
  obtain ⟨r, hr⟩ := Option.isSome_iff_exists.1 (by decide! :
    (divide_recursive_calls (collinearData none 2) 3
      ⟨[(0, .median bisect)], [0, 1, 2, 3]⟩ ⟨0, 0, 4⟩).isSome = true)
  obtain ⟨calls, st'⟩ := r
  have hlen : (divide_recursive_calls (collinearData none 2) 3
      ⟨[(0, .median bisect)], [0, 1, 2, 3]⟩ ⟨0, 0, 4⟩).map (fun r => r.1.map Prod.fst) =
      some [⟨0, 0, 4⟩] := by decide!
  rw [hr] at hlen
  simp only [Option.map_some', Option.some.injEq] at hlen
  have h2 := ((divide_recursive_leaf_rule (collinearData none 2) 2
    ⟨[(0, .median bisect)], [0, 1, 2, 3]⟩ ⟨0, 0, 4⟩ 0 (.median bisect) rfl).2.2
      (by decide)).2.2 calls st' hr
  refine ⟨st', ?_⟩
  rw [hr]
  congr 2
  cases calls with
  | nil => simp at hlen
  | cons c rest =>
    cases rest with
    | nil => simpa using h2.1
    | cons c' rest' => simp at hlen

/-! ## Totality of `partition` and the children it returns -/

/-- C18, amended: `DefaultEngine::factorization` and
`DefaultEngine::solve(FullMatrix)` abort if and only if `useLu` and `useLdlt`
are both set or both unset.  When exactly one of them is set, `factorization`
runs LLT if `useLdlt` and `cholesky`, LDLT if `useLdlt` and not `cholesky`, LU
otherwise, and `solve` runs the LU solve if `useLu` and the LDLT solve
otherwise. -/
theorem engine_factorization_mode (settings : HMatSettings) :
    (DefaultEngine.factorization settings = none ↔ settings.useLu = settings.useLdlt) ∧
    (DefaultEngine.solve settings = none ↔ settings.useLu = settings.useLdlt) ∧
    DefaultEngine.factorization settings =
      (if settings.useLu = settings.useLdlt then none
      else if settings.useLdlt ∧ settings.cholesky then some [HMatrixCall.lltDecomposition]
      else if settings.useLdlt then some [HMatrixCall.ldltDecomposition]
      else some [HMatrixCall.luDecomposition]) ∧
    DefaultEngine.solve settings =
      (if settings.useLu = settings.useLdlt then none
      else if settings.useLu then some [HMatrixCall.solve]
      else some [HMatrixCall.solveLdlt]) := by
  obtain ⟨useLu, useLdlt, cholesky⟩ := settings
  cases useLu <;> cases useLdlt <;> cases cholesky <;> decide

/-- Witness for the amended C18: with `useLdlt` and `cholesky` set and `useLu`
unset, `factorization` runs LLT and `solve` runs the LDLT solve. -/
theorem engine_factorization_mode_witness :
    DefaultEngine.factorization ⟨false, true, true⟩ = some [HMatrixCall.lltDecomposition] ∧
      DefaultEngine.solve ⟨false, true, true⟩ = some [HMatrixCall.solveLdlt] :=
  ⟨(engine_factorization_mode ⟨false, true, true⟩).2.2.1.trans (by decide),
    (engine_factorization_mode ⟨false, true, true⟩).2.2.2.trans (by decide)⟩

/-- Counterexample to C18 as stated: with `useLu` and `useLdlt` both unset the
check `useLdlt ^ useLu` fails, and both calls abort. -/
theorem engine_aborts_without_mode :
    DefaultEngine.factorization ⟨false, false, false⟩ = none ∧
      DefaultEngine.solve ⟨false, false, false⟩ = none := by
  decide

/-! ## Group reads of Geometric bisection -/

/-- C19 fails on the code: Geometric bisection with `k = 2` on the root of four
DOFs in two groups, the group sorted first lying to the right of the other.
The sort by (group, coordinate) leaves the order `0, 1, 2, 3`; the threshold is
`3/2` and the first DOF sits at `x = 2`, so the scan stops at `middleIndex = 0`;
the group id is then read at `middleIndex - 1 = -1`, before the range of the
node and before the array, and `partition` has no defined result. -/
theorem geometric_reads_before_node :
    sortByDimension displacedData [0, 1, 2, 3] ⟨0, 0, 4⟩
        (largestDimension displacedData [0, 1, 2, 3] ⟨0, 0, 4⟩) = [0, 1, 2, 3] ∧
    middlePosition displacedData [0, 1, 2, 3] ⟨0, 0, 4⟩ 2 0 1 = 3 / 2 ∧
    scanLoop displacedData [0, 1, 2, 3] ⟨0, 0, 4⟩ 1 0 (3 / 2) 4 0 = 0 ∧
    groupAt [0, 0, 1, 1] ⟨0, 0, 4⟩ 0 = some 0 ∧
    groupAt [0, 0, 1, 1] ⟨0, 0, 4⟩ (0 - 1) = none ∧
    GeometricBisectionAlgorithm.partition bisect displacedData [0, 1, 2, 3] ⟨0, 0, 4⟩ = none := by
  refine ⟨by decide!, by decide!, by decide!, by decide, by decide, by decide!⟩

/-! ## Frame and order of the sort -/

theorem orderedInsert_filter_pos {α : Type} (r : α → α → Prop) [DecidableRel r]
    (p : α → Bool) (a : α) (hpa : p a = true) (h : ∀ b, p b = true → r a b) :
    ∀ l : List α, (List.orderedInsert r a l).filter p = a :: l.filter p := by
  intro l
  induction l with
  | nil => simp [hpa]
  | cons b l ih =>
    rw [List.orderedInsert]
    by_cases hr : r a b
    · rw [if_pos hr, List.filter_cons, if_pos hpa]
    · rw [if_neg hr]
      have hpb : ¬ p b = true := fun hb => hr (h b hb)
      rw [List.filter_cons, if_neg hpb, ih, List.filter_cons, if_neg hpb]

theorem orderedInsert_filter_neg {α : Type} (r : α → α → Prop) [DecidableRel r]
    (p : α → Bool) (a : α) (hpa : ¬ p a = true) :
    ∀ l : List α, (List.orderedInsert r a l).filter p = l.filter p := by
  intro l
  induction l with
  | nil => simp [hpa]
  | cons b l ih =>
    rw [List.orderedInsert]
    by_cases hr : r a b
    · rw [if_pos hr, List.filter_cons, if_neg hpa]
    · rw [if_neg hr, List.filter_cons, ih, List.filter_cons]

/-- Insertion sort keeps the relative order of the elements that the order
does not tell apart. -/
theorem insertionSort_filter {α : Type} (r : α → α → Prop) [DecidableRel r]
    (p : α → Bool) (h : ∀ a b, p a = true → p b = true → r a b) :
    ∀ l : List α, (List.insertionSort r l).filter p = l.filter p := by
  intro l
  induction l with
  | nil => rfl
  | cons a l ih =>
    rw [List.insertionSort]
    by_cases hpa : p a = true
    · rw [orderedInsert_filter_pos r p a hpa (fun b hb => h a b hpa hb), ih, List.filter_cons,
        if_pos hpa]
    · rw [orderedInsert_filter_neg r p a hpa, ih, List.filter_cons, if_neg hpa]

theorem indicesComparator_false_iff_key (dim : Int) (d : DofData) (a b : Int) :
    IndicesComparator dim d b a = false ↔
      d.groupOf a < d.groupOf b ∨ (d.groupOf a = d.groupOf b ∧
        d.coordinates.spanCenter a dim ≤ d.coordinates.spanCenter b dim) := by
  rw [indicesComparator_false_iff]
  unfold DofData.groupOf
  cases d.group_index with
  | none => simp
  | some g => rfl

theorem stable_sort_sameKey (dim : Int) (d : DofData) (e : Int) (l : List Int) :
    (stable_sort (IndicesComparator dim d) l).filter (sameKey d dim e) =
      l.filter (sameKey d dim e) := by
  unfold stable_sort
  apply insertionSort_filter
  intro a b ha hb
  simp only [sameKey, decide_eq_true_eq] at ha hb
  rw [indicesComparator_false_iff_key]
  right
  exact ⟨by rw [ha.1, hb.1], by rw [ha.2, hb.2]⟩

/-- C20: frame of a partition.  `sortByDimension` applied to a node with the
range `[offset, offset + size)` keeps the length of the forward permutation,
leaves `forward[p]` unchanged at every position `p` outside the range, and
permutes the entries inside.  After the call the range is ordered by (group id,
coordinate along the axis), the coordinate being the span centre of the DOF: of
two entries the earlier one has the smaller group id, or the same group id and
a coordinate that is not greater; DOFs with equal keys keep their previous
relative order.  The permutation returned by
Median and by Geometric `partition` is that of `sortByDimension` along the axis
they choose. -/
theorem sortByDimension_frame (d : DofData) (indices : List Int) (current : Node) (dim : Int)
    (hin : InRange indices.length current) :
    (sortByDimension d indices current dim).length = indices.length ∧
    (∀ p : Nat, (p < current.offset.toNat ∨ current.offset.toNat + current.size.toNat ≤ p) →
      (sortByDimension d indices current dim)[p]? = indices[p]?) ∧
    (myIndices (sortByDimension d indices current dim) current).Perm
      (myIndices indices current) ∧
    (myIndices (sortByDimension d indices current dim) current).Pairwise
      (fun a b => d.groupOf a < d.groupOf b ∨ (d.groupOf a = d.groupOf b ∧
        d.coordinates.spanCenter a dim ≤ d.coordinates.spanCenter b dim)) ∧
    (∀ e : Int,
      (myIndices (sortByDimension d indices current dim) current).filter (sameKey d dim e) =
        (myIndices indices current).filter (sameKey d dim e)) ∧
    (∀ (a : AxisAlign) (sorted : List Int) (children : List Node),
      MedianBisectionAlgorithm.partition a d indices current = some (sorted, children) →
      ∃ axis, sorted = sortByDimension d indices current axis) ∧
    ∀ (a : AxisAlign) (sorted : List Int) (children : List Node) (a' : AxisAlign),
      GeometricBisectionAlgorithm.partition a d indices current = some (sorted, children, a') →
      ∃ axis, sorted = sortByDimension d indices current axis := by
  have hf : Frame indices (sortByDimension d indices current dim) current :=
    sortRange_frame _ indices current hin
  have hM : myIndices (sortByDimension d indices current dim) current
      = stable_sort (IndicesComparator dim d) (myIndices indices current) :=
    myIndices_sortRange _ indices current hin
  refine ⟨hf.1, hf.2.2, ?_, ?_, ?_, ?_, ?_⟩
  · rw [hM]; exact stable_sort_perm _ _
  · rw [hM]
    exact (stable_sort_indices_sorted dim d (myIndices indices current)).imp
      (fun h => (indicesComparator_false_iff_key dim d _ _).1 h)
  · intro e
    rw [hM]
    exact stable_sort_sameKey dim d e _
  · intro a sorted children h
    unfold MedianBisectionAlgorithm.partition at h
    cases hs : sort d indices current a.axisIndex a.spatialDimension with
    | none => rw [hs] at h; exact absurd h (by simp)
    | some s =>
      rw [hs] at h
      dsimp only at h
      cases hl : medianLoop d current a.divider (a.divider - 1).toNat 1 0 [] with
      | none => rw [hl] at h; exact absurd h (by simp)
      | some r =>
        rw [hl] at h
        simp only [Option.some.injEq, Prod.mk.injEq] at h
        rw [← h.1]
        exact sort_eq_sortByDimension d indices current _ _ s hs
  · intro a sorted children a' h
    unfold GeometricBisectionAlgorithm.partition at h
    cases hd : GeometricBisectionAlgorithm.dim a d indices current with
    | none => rw [hd] at h; exact absurd h (by simp)
    | some axis =>
      rw [hd] at h
      dsimp only at h
      cases hl : geometricLoop d (sortByDimension d indices current axis) current a.divider
          (GeometricBisectionAlgorithm.spatialDimension a d) axis (a.divider - 1).toNat 1 0 []
        with
      | none => rw [hl] at h; exact absurd h (by simp)
      | some r =>
        rw [hl] at h
        simp only [Option.some.injEq, Prod.mk.injEq] at h
        exact ⟨axis, h.1.symm⟩

/-- Witness for C20: sorting the range `[2, 6)` of the scattered points moves
only the entries of that range. -/
theorem sortByDimension_frame_witness :
    sortByDimension scatteredData [0, 1, 2, 3, 4, 5, 6, 7] ⟨0, 2, 4⟩ 0 =
        [0, 1, 3, 4, 2, 5, 6, 7] ∧
      (myIndices (sortByDimension scatteredData [0, 1, 2, 3, 4, 5, 6, 7] ⟨0, 2, 4⟩ 0)
        ⟨0, 2, 4⟩).Perm (myIndices [0, 1, 2, 3, 4, 5, 6, 7] ⟨0, 2, 4⟩) :=
  ⟨by decide!, (sortByDimension_frame scatteredData [0, 1, 2, 3, 4, 5, 6, 7] ⟨0, 2, 4⟩ 0
    ⟨by decide, by decide, by decide⟩).2.2.1⟩

/-! ## Positional group ids during a build -/

theorem divideChildrenForward_state
    (recurse : BuildState → Node → Option (ClusterTree × BuildState))
    (recurse' : BuildState → Node → Option (List (Node × List Int) × BuildState))
    (h : ∀ st c, (recurse' st c).map Prod.snd = (recurse st c).map Prod.snd) (depth : Int) :
    ∀ (children : List Node) (st : BuildState),
      (divideChildrenForward recurse' depth st children).map Prod.snd =
        (divideChildren recurse depth st children).map Prod.snd := by
  intro children
  induction children with
  | nil => intro st; rfl
  | cons child rest ih =>
    intro st
    rw [divideChildrenForward, divideChildren]
    have h1 := h st { child with depth := depth + 1 }
    cases hr' : recurse' st { child with depth := depth + 1 } with
    | none =>
      rw [hr'] at h1
      cases hr : recurse st { child with depth := depth + 1 } with
      | none => rfl
      | some r => rw [hr] at h1; simp at h1
    | some r' =>
      rw [hr'] at h1
      cases hr : recurse st { child with depth := depth + 1 } with
      | none => rw [hr] at h1; simp at h1
      | some r =>
        rw [hr] at h1
        simp only [Option.map_some', Option.some.injEq] at h1
        obtain ⟨calls, st1⟩ := r'
        obtain ⟨t, st2⟩ := r
        simp only at h1
        subst h1
        have h2 := ih st1
        dsimp only
        cases hc' : divideChildrenForward recurse' depth st1 rest with
        | none =>
          rw [hc'] at h2
          cases hc : divideChildren recurse depth st1 rest with
          | none => rfl
          | some r => rw [hc] at h2; simp at h2
        | some c' =>
          rw [hc'] at h2
          cases hc : divideChildren recurse depth st1 rest with
          | none => rw [hc] at h2; simp at h2
          | some c =>
            rw [hc] at h2
            simpa using h2

theorem divide_recursive_forward_state (d : DofData) :
    ∀ (fuel : Nat) (st : BuildState) (current : Node),
      (divide_recursive_forward d fuel st current).map Prod.snd =
        (divide_recursive d fuel st current).map Prod.snd := by
  intro fuel
  induction fuel with
  | zero => intro st current; rfl
  | succ fuel ih =>
    intro st current
    rw [divide_recursive_forward, divide_recursive]
    cases hg : getAlgorithm st.algo current.depth with
    | none => rfl
    | some pa =>
      obtain ⟨pos, algo⟩ := pa
      dsimp only
      by_cases hl : current.size ≤ algo.getMaxLeafSize d
      · rw [if_pos hl, if_pos hl]; rfl
      · rw [if_neg hl, if_neg hl]
        cases hp : algo.partition d st.indices current with
        | none => rfl
        | some pr =>
          obtain ⟨indices, children, algo'⟩ := pr
          dsimp only
          have h2 := divideChildrenForward_state (divide_recursive d fuel)
            (divide_recursive_forward d fuel) ih current.depth children
            ⟨setAlgorithm st.algo pos algo', indices⟩
          cases hc' : divideChildrenForward (divide_recursive_forward d fuel) current.depth
              ⟨setAlgorithm st.algo pos algo', indices⟩ children with
          | none =>
            rw [hc'] at h2
            cases hc : divideChildren (divide_recursive d fuel) current.depth
                ⟨setAlgorithm st.algo pos algo', indices⟩ children with
            | none => rfl
            | some r => rw [hc] at h2; simp at h2
          | some c' =>
            rw [hc'] at h2
            cases hc : divideChildren (divide_recursive d fuel) current.depth
                ⟨setAlgorithm st.algo pos algo', indices⟩ children with
            | none => rw [hc] at h2; simp at h2
            | some c =>
              rw [hc] at h2
              simpa using h2

theorem identityIndices_groupsAgree (g : List Int) (n : Nat) :
    GroupsAgree g (identityIndices n) := by
  intro p hp
  have hp' : p < n := by simpa [identityIndices] using hp
  have : (identityIndices n).getD p 0 = (p : Int) := by
    simp [identityIndices, List.getD_eq_getElem?_getD, List.getElem?_range hp']
  rw [this]
  simp

theorem divideChildrenForward_ind
    (recurse : BuildState → Node → Option (List (Node × List Int) × BuildState))
    (depth : Int) (I : BuildState → Prop) (N : Node → Prop) (E : Node × List Int → Prop)
    (hrec : ∀ st c r, I st → N c → recurse st c = some r → I r.2 ∧ ∀ e ∈ r.1, E e) :
    ∀ (children : List Node) (st : BuildState) (r : List (Node × List Int) × BuildState),
      I st → (∀ c ∈ children, N { c with depth := depth + 1 }) →
      divideChildrenForward recurse depth st children = some r →
      I r.2 ∧ ∀ e ∈ r.1, E e := by
  intro children
  induction children with
  | nil =>
    intro st r hI _ h
    simp only [divideChildrenForward, Option.some.injEq] at h
    subst h
    exact ⟨hI, fun e he => by cases he⟩
  | cons c cs ih =>
    intro st r hI hN h
    rw [divideChildrenForward] at h
    cases h1 : recurse st { c with depth := depth + 1 } with
    | none => rw [h1] at h; exact absurd h (by simp)
    | some r1 =>
      obtain ⟨calls1, st1⟩ := r1
      rw [h1] at h
      dsimp only at h
      obtain ⟨a1, a2⟩ := hrec st _ (calls1, st1) hI (hN c (List.mem_cons_self _ _)) h1
      cases h2 : divideChildrenForward recurse depth st1 cs with
      | none => rw [h2] at h; exact absurd h (by simp)
      | some r2 =>
        obtain ⟨calls2, st2⟩ := r2
        rw [h2] at h
        simp only [Option.some.injEq] at h
        subst h
        obtain ⟨b1, b2⟩ := ih st1 (calls2, st2) a1
          (fun c' hc' => hN c' (List.mem_cons_of_mem _ hc')) h2
        refine ⟨b1, fun e he => ?_⟩
        rcases List.mem_append.1 he with he | he
        · exact a2 e he
        · exact b2 e he

/-- Induction over the `partition` calls of `divide_recursive`: a state
invariant `I`, a node property `N`, and a property `E` of every call and the
permutation it leaves. -/
theorem divide_recursive_forward_ind (d : DofData) (I : BuildState → Prop) (N : Node → Prop)
    (E : Node × List Int → Prop)
    (hstep : ∀ st current pos algo indices children algo', I st → N current →
      getAlgorithm st.algo current.depth = some (pos, algo) →
      ¬ current.size ≤ algo.getMaxLeafSize d →
      algo.partition d st.indices current = some (indices, children, algo') →
      I ⟨setAlgorithm st.algo pos algo', indices⟩ ∧ E (current, indices) ∧
      ∀ c ∈ children, N { c with depth := current.depth + 1 }) :
    ∀ (fuel : Nat) (st : BuildState) (current : Node)
      (r : List (Node × List Int) × BuildState),
      I st → N current → divide_recursive_forward d fuel st current = some r →
      I r.2 ∧ ∀ e ∈ r.1, E e := by
  intro fuel
  induction fuel with
  | zero => intro st current r _ _ h; simp [divide_recursive_forward] at h
  | succ fuel ih =>
    intro st current r hI hN h
    rw [divide_recursive_forward] at h
    cases hg : getAlgorithm st.algo current.depth with
    | none => rw [hg] at h; exact absurd h (by simp)
    | some pa =>
      obtain ⟨pos, algo⟩ := pa
      rw [hg] at h
      dsimp only at h
      by_cases hl : current.size ≤ algo.getMaxLeafSize d
      · rw [if_pos hl] at h
        simp only [Option.some.injEq] at h
        subst h
        exact ⟨hI, fun e he => by cases he⟩
      · rw [if_neg hl] at h
        cases hp : algo.partition d st.indices current with
        | none => rw [hp] at h; exact absurd h (by simp)
        | some pr =>
          obtain ⟨indices, children, algo'⟩ := pr
          rw [hp] at h
          dsimp only at h
          obtain ⟨s1, s2, s3⟩ := hstep st current pos algo indices children algo' hI hN hg hl hp
          cases hc : divideChildrenForward (divide_recursive_forward d fuel) current.depth
              ⟨setAlgorithm st.algo pos algo', indices⟩ children with
          | none => rw [hc] at h; exact absurd h (by simp)
          | some cr =>
            obtain ⟨calls, st2⟩ := cr
            rw [hc] at h
            simp only [Option.some.injEq] at h
            subst h
            obtain ⟨b1, b2⟩ := divideChildrenForward_ind (divide_recursive_forward d fuel)
              current.depth I N E (fun st c r hI hN hr => ih st c r hI hN hr) children _
              (calls, st2) s1 s3 hc
            refine ⟨b1, fun e he => ?_⟩
            rcases List.mem_cons.1 he with he | he
            · rw [he]; exact s2
            · exact b2 e he


/-! ## Positions inside the array -/

theorem upperLoop_range (g : List Int) (current : Node) (group : Int) :
    ∀ (n : Nat) (upper r : Int), upperLoop g current group n upper = some r →
      upper ≤ r ∧ r ≤ upper + n := by
  intro n
  induction n with
  | zero =>
    intro upper r h
    simp only [upperLoop, Option.some.injEq] at h
    subst h
    simp
  | succ n ih =>
    intro upper r h
    rw [upperLoop] at h
    by_cases hc : upper < current.size
    · rw [if_pos hc] at h
      cases hx : groupAt g current upper with
      | none => rw [hx] at h; exact absurd h (by simp)
      | some x =>
        rw [hx] at h
        dsimp only at h
        by_cases he : x = group
        · rw [if_pos he] at h
          have := ih (upper + 1) r h
          push_cast
          omega
        · rw [if_neg he] at h
          cases h
          push_cast
          omega
    · rw [if_neg hc] at h
      cases h
      push_cast
      omega

theorem lowerLoop_range (g : List Int) (current : Node) (group : Int) :
    ∀ (n : Nat) (lower r : Int), lowerLoop g current group n lower = some r →
      lower - n ≤ r ∧ r ≤ lower := by
  intro n
  induction n with
  | zero =>
    intro lower r h
    simp only [lowerLoop, Option.some.injEq] at h
    subst h
    simp
  | succ n ih =>
    intro lower r h
    rw [lowerLoop] at h
    by_cases hc : lower ≥ 0
    · rw [if_pos hc] at h
      cases hx : groupAt g current lower with
      | none => rw [hx] at h; exact absurd h (by simp)
      | some x =>
        rw [hx] at h
        dsimp only at h
        by_cases he : x = group
        · rw [if_pos he] at h
          have := ih (lower - 1) r h
          push_cast
          omega
        · rw [if_neg he] at h
          cases h
          push_cast
          omega
    · rw [if_neg hc] at h
      cases h
      push_cast
      omega

/-- With groups, the index committed by the adjustment block is a position of
the group array, whatever the index it starts from. -/
theorem adjustSplit_inArray (d : DofData) (g : List Int) (hg : d.group_index = some g)
    (current : Node) (closer : Int → Int → Bool) (m a : Int)
    (h1 : 0 ≤ current.offset) (h2 : current.offset + current.size ≤ g.length)
    (h : adjustSplit d current closer m = some a) :
    0 ≤ current.offset + a ∧ current.offset + a ≤ g.length := by
  unfold adjustSplit at h
  simp only [hg] at h
  cases e1 : groupAt g current m with
  | none => simp [e1] at h
  | some group =>
    cases e2 : groupAt g current (m - 1) with
    | none => simp [e1, e2] at h
    | some before =>
      simp only [e1, e2] at h
      have hm : 0 ≤ current.offset + m ∧ current.offset + m < g.length := by
        unfold groupAt at e1
        by_cases hc : 0 ≤ current.offset + m ∧ current.offset + m < g.length
        · exact hc
        · rw [if_neg hc] at e1
          exact absurd e1 (by simp)
      by_cases hb : before = group
      · rw [if_pos hb] at h
        cases hu : upperLoop g current group (current.size - m).toNat m with
        | none => simp [hu] at h
        | some upper =>
          cases hl : lowerLoop g current group m.toNat (m - 1) with
          | none => simp [hu, hl] at h
          | some lower =>
            simp only [hu, hl] at h
            have r1 := upperLoop_range g current group _ _ _ hu
            have r2 := lowerLoop_range g current group _ _ _ hl
            split_ifs at h <;> cases h <;> omega
      · rw [if_neg hb] at h
        cases h
        omega

theorem medianLoop_inArray (d : DofData) (g : List Int) (hg : d.group_index = some g)
    (current : Node) (k : Int) (h1 : 0 ≤ current.offset)
    (h2 : current.offset + current.size ≤ g.length) :
    ∀ (n : Nat) (i prev : Int) (children : List Node) (r : Int × List Node),
      (0 ≤ current.offset + prev ∧ current.offset + prev ≤ g.length) →
      (∀ c ∈ children, InArray g.length c) →
      medianLoop d current k n i prev children = some r →
      (0 ≤ current.offset + r.1 ∧ current.offset + r.1 ≤ g.length) ∧
        ∀ c ∈ r.2, InArray g.length c := by
  intro n
  induction n with
  | zero =>
    intro i prev children r hp hc h
    simp only [medianLoop, Option.some.injEq] at h
    subst h
    exact ⟨hp, hc⟩
  | succ n ih =>
    intro i prev children r hp hc h
    rw [medianLoop] at h
    cases hm : MedianBisectionAlgorithm.middleIndex d current k i with
    | none => rw [hm] at h; exact absurd h (by simp)
    | some a =>
      rw [hm] at h
      dsimp only at h
      have ha := adjustSplit_inArray d g hg current _ _ a h1 h2 hm
      refine ih (i + 1) a _ r ha ?_ h
      intro c hcm
      by_cases hgt : a > prev
      · rw [if_pos hgt] at hcm
        rcases List.mem_append.1 hcm with hcm | hcm
        · exact hc c hcm
        · rw [List.mem_singleton.1 hcm]
          simp only [InArray, Node.slice]
          omega
      · rw [if_neg hgt] at hcm
        exact hc c hcm

theorem geometricLoop_inArray (d : DofData) (g : List Int) (hg : d.group_index = some g)
    (indices : List Int) (current : Node) (k sd dim : Int) (h1 : 0 ≤ current.offset)
    (h2 : current.offset + current.size ≤ g.length) :
    ∀ (n : Nat) (i prev : Int) (children : List Node) (r : Int × List Node),
      (0 ≤ current.offset + prev ∧ current.offset + prev ≤ g.length) →
      (∀ c ∈ children, InArray g.length c) →
      geometricLoop d indices current k sd dim n i prev children = some r →
      (0 ≤ current.offset + r.1 ∧ current.offset + r.1 ≤ g.length) ∧
        ∀ c ∈ r.2, InArray g.length c := by
  intro n
  induction n with
  | zero =>
    intro i prev children r hp hc h
    simp only [geometricLoop, Option.some.injEq] at h
    subst h
    exact ⟨hp, hc⟩
  | succ n ih =>
    intro i prev children r hp hc h
    rw [geometricLoop] at h
    cases hm : GeometricBisectionAlgorithm.middleIndex d indices current k sd dim i prev with
    | none => rw [hm] at h; exact absurd h (by simp)
    | some a =>
      rw [hm] at h
      dsimp only at h
      have ha := adjustSplit_inArray d g hg current _ _ a h1 h2 hm
      refine ih (i + 1) a _ r ha ?_ h
      intro c hcm
      by_cases hgt : a > prev
      · rw [if_pos hgt] at hcm
        rcases List.mem_append.1 hcm with hcm | hcm
        · exact hc c hcm
        · rw [List.mem_singleton.1 hcm]
          simp only [InArray, Node.slice]
          omega
      · rw [if_neg hgt] at hcm
        exact hc c hcm

/-- The sort of a range without entries leaves the permutation as it is. -/
theorem sortRange_of_size_le (lt : Int → Int → Bool) (indices : List Int) (current : Node)
    (h : current.size ≤ 0) : sortRange lt indices current = indices := by
  have hz : current.size.toNat = 0 := by omega
  simp [sortRange, myIndices, hz, stable_sort]

theorem sortByDimension_groupsAgree_inArray (d : DofData) (g : List Int)
    (hg : d.group_index = some g) (indices : List Int) (current : Node) (dim : Int)
    (hin : InArray indices.length current) (hlen : g.length = indices.length)
    (hmono : g.Pairwise (fun x y => x ≤ y)) (hJ : GroupsAgree g indices) :
    GroupsAgree g (sortByDimension d indices current dim) ∧
      (sortByDimension d indices current dim).length = indices.length := by
  rcases le_or_lt current.size 0 with hs | hs
  · unfold sortByDimension
    rw [sortRange_of_size_le _ _ _ hs]
    exact ⟨hJ, rfl⟩
  · have hin' : InRange indices.length current := ⟨hin.1, le_of_lt hs, hin.2.2.2⟩
    exact ⟨sortByDimension_groupsAgree d g hg indices current dim hin' hlen hmono hJ,
      (sortRange_frame _ indices current hin').1⟩

/-- With groups, Median and Geometric bisection keep the positional group ids
in agreement with the DOFs and return children whose ends are positions of the
array, also when a product of Median bisection overflows. -/
theorem bisection_partition_inArray (algo : ClusteringAlgorithm) (hb : IsBisection algo)
    (d : DofData) (g : List Int) (hg : d.group_index = some g) (indices : List Int)
    (current : Node) (indices' : List Int) (children : List Node)
    (algo' : ClusteringAlgorithm) (hin : InArray indices.length current)
    (hlen : g.length = indices.length) (hmono : g.Pairwise (fun x y => x ≤ y))
    (hJ : GroupsAgree g indices)
    (h : algo.partition d indices current = some (indices', children, algo')) :
    IsBisection algo' ∧ GroupsAgree g indices' ∧ indices'.length = indices.length ∧
    ∀ c ∈ children, InArray indices.length c := by
  obtain ⟨a1, a2, a3, a4⟩ := hin
  cases algo with
  | median a =>
    rw [ClusteringAlgorithm.partition] at h
    cases hp : MedianBisectionAlgorithm.partition a d indices current with
    | none => rw [hp] at h; exact absurd h (by simp)
    | some r =>
      obtain ⟨s, ch⟩ := r
      rw [hp] at h
      simp only [Option.some.injEq, Prod.mk.injEq] at h
      obtain ⟨e1, e2, e3⟩ := h
      subst e1 e2 e3
      unfold MedianBisectionAlgorithm.partition at hp
      cases hsort : sort d indices current a.axisIndex a.spatialDimension with
      | none => rw [hsort] at hp; exact absurd hp (by simp)
      | some s' =>
        rw [hsort] at hp
        cases hl : medianLoop d current a.divider (a.divider - 1).toNat 1 0 [] with
        | none => rw [hl] at hp; exact absurd hp (by simp)
        | some r =>
          rw [hl] at hp
          simp only [Option.some.injEq, Prod.mk.injEq] at hp
          obtain ⟨hp1, hp2⟩ := hp
          obtain ⟨dim, hdim⟩ := sort_eq_sortByDimension d indices current _ _ s' hsort
          obtain ⟨q1, q2⟩ := sortByDimension_groupsAgree_inArray d g hg indices current dim
            ⟨a1, a2, a3, a4⟩ hlen hmono hJ
          obtain ⟨r1, r2⟩ := medianLoop_inArray d g hg current a.divider a1
            (by rw [hlen]; exact a4) _ 1 0 [] r (by rw [hlen]; omega)
            (fun c hc => by simp at hc) hl
          rw [← hp1, hdim]
          refine ⟨trivial, q1, q2, ?_⟩
          intro c hc
          rw [← hp2] at hc
          rcases List.mem_append.1 hc with hc | hc
          · rw [← hlen]; exact r2 c hc
          · rw [List.mem_singleton.1 hc]
            rw [hlen] at r1
            simp only [InArray, Node.slice]
            omega
  | geometric a =>
    rw [ClusteringAlgorithm.partition] at h
    cases hp : GeometricBisectionAlgorithm.partition a d indices current with
    | none => rw [hp] at h; exact absurd h (by simp)
    | some r =>
      obtain ⟨s, ch, a'⟩ := r
      rw [hp] at h
      simp only [Option.some.injEq, Prod.mk.injEq] at h
      obtain ⟨e1, e2, e3⟩ := h
      subst e1 e2 e3
      unfold GeometricBisectionAlgorithm.partition at hp
      cases hdim : GeometricBisectionAlgorithm.dim a d indices current with
      | none => rw [hdim] at hp; exact absurd hp (by simp)
      | some dim =>
        rw [hdim] at hp
        dsimp only at hp
        cases hl : geometricLoop d (sortByDimension d indices current dim) current a.divider
            (GeometricBisectionAlgorithm.spatialDimension a d) dim
            (a.divider - 1).toNat 1 0 [] with
        | none => rw [hl] at hp; exact absurd hp (by simp)
        | some r =>
          rw [hl] at hp
          simp only [Option.some.injEq, Prod.mk.injEq] at hp
          obtain ⟨hp1, hp2, -⟩ := hp
          obtain ⟨q1, q2⟩ := sortByDimension_groupsAgree_inArray d g hg indices current dim
            ⟨a1, a2, a3, a4⟩ hlen hmono hJ
          obtain ⟨r1, r2⟩ := geometricLoop_inArray d g hg _ current a.divider _ dim a1
            (by rw [hlen]; exact a4) _ 1 0 [] r (by rw [hlen]; omega)
            (fun c hc => by simp at hc) hl
          rw [← hp1]
          refine ⟨trivial, q1, q2, ?_⟩
          intro c hc
          rw [← hp2] at hc
          rcases List.mem_append.1 hc with hc | hc
          · rw [← hlen]; exact r2 c hc
          · rw [List.mem_singleton.1 hc]
            rw [hlen] at r1
            simp only [InArray, Node.slice]
            omega
  | hybrid b m g' t => exact absurd hb (by simp [IsBisection])
  | voidClustering b a => exact absurd hb (by simp [IsBisection])
  | shuffle b a f t => exact absurd hb (by simp [IsBisection])
  | span b a r => exact absurd hb (by simp [IsBisection])

/-- C21: positional group lookup agrees with DOF identity.  Let the group ids be
non-decreasing in DOF id and the forward permutation start as the identity, and
let the schedule hold Median and Geometric strategies.  The identity satisfies
`group_index[forward[p]] = group_index[p]` at every position; `sortByDimension`
on any node keeps it; so after every `partition` call of the build, which
changes the permutation by its `sortByDimension` call alone, it holds at every
position `p` in `[0, N)`, and the id read at position `q` of the node of the
call is the group of the DOF stored there. -/
theorem groups_agree_during_build (d : DofData) (g : List Int) (n : Nat)
    (algo : List (Int × ClusteringAlgorithm)) (fuel : Nat)
    (hg : d.group_index = some g) (hlen : g.length = n)
    (hmono : g.Pairwise (fun x y => x ≤ y)) (hbis : ∀ e ∈ algo, IsBisection e.2) :
    GroupsAgree g (identityIndices n) ∧
    (∀ (indices : List Int) (current : Node) (dim : Int), indices.length = n →
      InRange n current → GroupsAgree g indices →
      GroupsAgree g (sortByDimension d indices current dim)) ∧
    (divide_recursive_forward d fuel ⟨algo, identityIndices n⟩ ⟨0, 0, n⟩).map Prod.snd =
      (divide_recursive d fuel ⟨algo, identityIndices n⟩ ⟨0, 0, n⟩).map Prod.snd ∧
    ∀ (calls : List (Node × List Int)) (st' : BuildState),
      divide_recursive_forward d fuel ⟨algo, identityIndices n⟩ ⟨0, 0, n⟩ = some (calls, st') →
      GroupsAgree g st'.indices ∧
      ∀ e ∈ calls, e.2.length = n ∧ GroupsAgree g e.2 ∧
        ∀ q : Int, 0 ≤ q → q < e.1.size →
          groupAt g e.1 q = some (g.getD (indexAt e.2 e.1 q).toNat 0) := by
  refine ⟨identityIndices_groupsAgree g n, ?_, divide_recursive_forward_state d _ _ _, ?_⟩
  · intro indices current dim hl hin hJ
    exact sortByDimension_groupsAgree d g hg indices current dim (by rw [hl]; exact hin)
      (by rw [hlen, hl]) hmono hJ
  intro calls st' h
  have key := divide_recursive_forward_ind d
    (fun st => st.indices.length = n ∧ GroupsAgree g st.indices ∧
      ∀ e ∈ st.algo, IsBisection e.2)
    (InArray n)
    (fun e => InArray n e.1 ∧ e.2.length = n ∧ GroupsAgree g e.2) ?_ fuel
    ⟨algo, identityIndices n⟩ ⟨0, 0, n⟩ (calls, st')
    ⟨by simp [identityIndices], identityIndices_groupsAgree g n, hbis⟩
    ⟨le_refl _, by simp, by simp, by simp⟩ h
  · refine ⟨key.1.2.1, fun e he => ?_⟩
    obtain ⟨⟨a1, a2, a3, a4⟩, e2, e3⟩ := key.2 e he
    refine ⟨e2, e3, fun q h0 hq => ?_⟩
    rw [groupAt_eq g e.1 q (by omega) (by omega)]
    have := e3 (e.1.offset + q).toNat (by omega)
    rw [← this]
    rfl
  · intro st current pos algo' indices children algo'' hI hN hget _ hpart
    obtain ⟨i1, i2, i3⟩ := hI
    obtain ⟨thr, hmem⟩ := getAlgorithm_mem st.algo current.depth pos algo' hget
    have hb := i3 (thr, algo') (List.getElem?_mem hmem)
    obtain ⟨p1, p3, p4, p5⟩ := bisection_partition_inArray algo' hb d g hg st.indices
      current indices children algo'' (by rw [i1]; exact hN) (by rw [hlen, i1]) hmono i2 hpart
    refine ⟨⟨by rw [p4, i1], p3, fun e he => ?_⟩, ⟨hN, by rw [p4, i1], p3⟩, fun c hc => ?_⟩
    · rcases setAlgorithm_mem st.algo pos algo'' e he with h' | h'
      · exact i3 e h'
      · rw [h']; exact p1
    · have := p5 c hc
      rw [i1] at this
      exact this

/-- Witness for C21: Median bisection of four collinear DOFs in the groups
`0, 0, 1, 1` makes one `partition` call, and the positional group ids agree
with the DOFs at the end. -/
theorem groups_agree_during_build_witness :
    ∃ calls st', divide_recursive_forward (collinearData (some [0, 0, 1, 1]) 2) 3
        ⟨[(0, .median bisect)], identityIndices 4⟩ ⟨0, 0, 4⟩ = some (calls, st') ∧
      calls.length = 1 ∧ GroupsAgree [0, 0, 1, 1] st'.indices := by
  obtain ⟨r, hr⟩ := Option.isSome_iff_exists.1 (by decide! :
    (divide_recursive_forward (collinearData (some [0, 0, 1, 1]) 2) 3
      ⟨[(0, .median bisect)], identityIndices 4⟩ ⟨0, 0, 4⟩).isSome = true)
  obtain ⟨calls, st'⟩ := r
  have hlen : (divide_recursive_forward (collinearData (some [0, 0, 1, 1]) 2) 3
      ⟨[(0, .median bisect)], identityIndices 4⟩ ⟨0, 0, 4⟩).map (fun r => r.1.length) =
      some 1 := by decide!
  rw [hr] at hlen
  simp only [Option.map_some', Option.some.injEq] at hlen
  exact ⟨calls, st', hr, hlen,
    ((groups_agree_during_build (collinearData (some [0, 0, 1, 1]) 2) [0, 0, 1, 1] 4
      [(0, .median bisect)] 3 rfl rfl (by decide)
      (fun e he => by rw [List.mem_singleton.1 he]; trivial)).2.2.2 calls st' hr).1⟩

/-! ## Progress of Median bisection -/

end hmat
